import Mathlib

/-!
# Verification of the gcech generalized Čech complex construction

Shallow embedding of `src/gcech/cech.py` over the real numbers.

Modelling conventions:
* Python floats are modelled by `ℝ`; `math.sqrt` by `Real.sqrt`.
* Python lists are Lean lists; `positions[i]` / `radius[i]` are modelled by
  `List.getD` with a junk default.  This agrees with Python on every access
  whose index is in range (all indices produced by the algorithm are `< N`,
  and `N = len(positions)`; only a radius list shorter than the position list
  could make Python raise where `getD` returns junk).
* Python sets of small naturals are iterated in ascending order in CPython;
  the iteration order is in any case unspecified, and we fix ascending order
  (via `List.range`-filters).  All claims compare levels as sets.
* The `KeyError` a Python `dict[...]` lookup can raise is modelled by
  `Option`: the optimized pipeline returns `none` where Python would raise.
* Python `while True` loops are given explicit fuel `N + 1`;  the loops break
  once a level is empty, which necessarily happens for a level index beyond
  the number of balls, so the fuel is never exhausted on the real control
  flow (a simplex has at most `N` distinct vertices).
-/

open Classical

noncomputable section

namespace Gcech

/-- A point of the plane, `(x, y)`. -/
abbrev Point : Type := ℝ × ℝ

/-! ## Generic list helpers

Python's `for`/`if` loops over lists are expressed with the following
first-order recursors (classical conditions allowed). -/

/-- Keep the elements satisfying `Q`, in order (a Python list/set comprehension). -/
def filterP {α : Type} (Q : α → Prop) : List α → List α
  | [] => []
  | a :: l => if Q a then a :: filterP Q l else filterP Q l

/-- `allP Q l` is the boolean "every element of `l` satisfies `Q`". -/
def allP {α : Type} (Q : α → Prop) : List α → Bool
  | [] => true
  | a :: l => if Q a then allP Q l else false

/-- `anyP Q l` is the boolean "some element of `l` satisfies `Q`". -/
def anyP {α : Type} (Q : α → Prop) : List α → Bool
  | [] => false
  | a :: l => if Q a then true else anyP Q l

/-- First element of `l` satisfying `Q`, if any (a Python loop with `return`). -/
def firstHit {α : Type} (Q : α → Prop) : List α → Option α
  | [] => none
  | a :: l => if Q a then some a else firstHit Q l

/-- First `some` produced by `f` along `l` (nested Python loops with `return`). -/
def firstMap {α β : Type} (f : α → Option β) : List α → Option β
  | [] => none
  | a :: l => match f a with
      | some b => some b
      | none => firstMap f l

/-- All ordered pairs `(l[a], l[b])` with `a < b`, in the order produced by
`itertools.combinations(l, 2)`. -/
def pairsList {α : Type} : List α → List (α × α)
  | [] => []
  | a :: l => (l.map (fun b => (a, b))) ++ pairsList l

/-- All `k`-element combinations of `l`, each in the order of `l`, enumerated in
the order produced by `itertools.combinations(l, k)`. -/
def combos {α : Type} : ℕ → List α → List (List α)
  | 0, _ => [[]]
  | _ + 1, [] => []
  | k + 1, a :: l => (combos k l).map (fun c => a :: c) ++ combos (k + 1) l

/-- Association-list lookup for the memo table `self.intersections`
(`dict` keyed by `frozenset`); most recent insertion first. -/
def memoLookup (sig : Finset ℕ) : List (Finset ℕ × Point) → Option Point
  | [] => none
  | e :: l => if e.1 = sig then some e.2 else memoLookup sig l

/-! ## Geometric primitives (module level in `cech.py`) -/

/-- The `else` branch of `get_intersections` (the chord-midpoint plus
perpendicular-offset construction), with `d` the distance between the
centers. -/
def interPoints (x0 y0 r0 x1 y1 r1 d : ℝ) : List Point :=
  let a := (r0 ^ 2 - r1 ^ 2 + d ^ 2) / (2 * d)
  let h := Real.sqrt (r0 ^ 2 - a ^ 2)
  let x2 := x0 + a * (x1 - x0) / d
  let y2 := y0 + a * (y1 - y0) / d
  [(x2 + h * (y1 - y0) / d, y2 - h * (x1 - x0) / d),
   (x2 - h * (y1 - y0) / d, y2 + h * (x1 - x0) / d)]

/-- `get_intersections` from `cech.py`: the intersection points of the circles
of radius `r0` around `(x0, y0)` and radius `r1` around `(x1, y1)`, with the
degenerate-case guards of the source (non-intersecting, one circle nested in
the other, coincident circles); `d = math.sqrt(...)` is computed once in the
source and written out here. -/
def get_intersections (x0 y0 r0 x1 y1 r1 : ℝ) : List Point :=
  if Real.sqrt ((x1 - x0) ^ 2 + (y1 - y0) ^ 2) > r0 + r1 then []
  else if Real.sqrt ((x1 - x0) ^ 2 + (y1 - y0) ^ 2) < |r0 - r1| then []
  else if Real.sqrt ((x1 - x0) ^ 2 + (y1 - y0) ^ 2) = 0 ∧ r0 = r1 then []
  else interPoints x0 y0 r0 x1 y1 r1 (Real.sqrt ((x1 - x0) ^ 2 + (y1 - y0) ^ 2))

/-! ## The configuration of one construction run (`self.positions`,
`self.radius`, `self.N`) -/

/-- The immutable input of one construction run: the ball centers and radii
(`self.positions` and `self.radius`). -/
structure Cfg where
  pos : List Point
  rad : List ℝ

/-- `self.N = len(positions)`. -/
def Cfg.N (cfg : Cfg) : ℕ := cfg.pos.length

/-- `self.positions[i]` (junk default out of range, see module comment). -/
def Cfg.P (cfg : Cfg) (i : ℕ) : Point := cfg.pos.getD i ((0 : ℝ), (0 : ℝ))

/-- `self.radius[i]` (junk default out of range, see module comment). -/
def Cfg.R (cfg : Cfg) (i : ℕ) : ℝ := cfg.rad.getD i 0

/-- `self.dist(i, j) = sqrt((x1-x2)**2 + (y1-y2)**2)`. -/
def Cfg.dist (cfg : Cfg) (i j : ℕ) : ℝ :=
  Real.sqrt (((cfg.P i).1 - (cfg.P j).1) ^ 2 + ((cfg.P i).2 - (cfg.P j).2) ^ 2)

/-- `self.isPointInsideCell(p, cellid)`: closed-disc membership by squared
distances. -/
def Cfg.inCell (cfg : Cfg) (p : Point) (cellid : ℕ) : Prop :=
  ((cfg.P cellid).1 - p.1) ^ 2 + ((cfg.P cellid).2 - p.2) ^ 2 ≤ cfg.R cellid ^ 2

/-- `self.isCellInsideCell(i, j) = dist(i, j) <= abs(radius[i] - radius[j])`. -/
def Cfg.isInside (cfg : Cfg) (i j : ℕ) : Prop :=
  cfg.dist i j ≤ |cfg.R i - cfg.R j|

/-- `self.intersects(i, j)`: the source returns `False` when
`d > radius[i] + radius[j]` and `True` otherwise, i.e. `d ≤ radius[i] + radius[j]`. -/
def Cfg.intersects (cfg : Cfg) (i j : ℕ) : Prop :=
  cfg.dist i j ≤ cfg.R i + cfg.R j

/-- `self.intersection(i, j)`. -/
def Cfg.inter (cfg : Cfg) (i j : ℕ) : List Point :=
  get_intersections (cfg.P i).1 (cfg.P i).2 (cfg.R i) (cfg.P j).1 (cfg.P j).2 (cfg.R j)

/-! ## Neighbor graph (`sim0`, `sim1`, `self.neighbor`) -/

/-- `self.neighbor[i]` as built by `sim1` (`j` is added for `i < j` with
`intersects(i, j)`, and symmetrically), listed ascending (Python set order is
unspecified; see module comment). -/
def Cfg.neighbor (cfg : Cfg) (i : ℕ) : List ℕ :=
  filterP (fun j => (i < j ∧ cfg.intersects i j) ∨ (j < i ∧ cfg.intersects j i))
    (List.range cfg.N)

/-- `sim0`: the singleton simplices `[[0], ..., [N-1]]`. -/
def Cfg.sim0 (cfg : Cfg) : List (List ℕ) :=
  (List.range cfg.N).map (fun i => [i])

/-- `sim1`: the overlapping pairs `[i, j]`, `i < j`, in loop order. -/
def Cfg.sim1 (cfg : Cfg) : List (List ℕ) :=
  (List.range cfg.N).flatMap (fun i =>
    (filterP (fun j => i < j ∧ cfg.intersects i j) (List.range cfg.N)).map
      (fun j => [i, j]))

/-! ## Shared verifier pieces -/

/-- The `smallest = cells[0]; for c in cells: if radius[c] < radius[smallest]...`
loop of both `verify` methods. -/
def Cfg.findSmallest (cfg : Cfg) (cells : List ℕ) : ℕ :=
  cells.foldl (fun m c => if cfg.R c < cfg.R m then c else m) (cells.headD 0)

/-- The containment-shortcut loop of both `verify` methods: every `c` in
`cells` is either `smallest` itself or satisfies `isCellInsideCell(c, smallest)`. -/
def Cfg.containsAllB (cfg : Cfg) (cells : List ℕ) (m : ℕ) : Bool :=
  allP (fun c => c = m ∨ cfg.isInside c m) cells

/-! ## Baseline constructor `CechComplexLE` -/

/-- `CechComplexLE.getCandidates(k)`: for each ball `i`, each `k`-combination of
`neighbor[i]` prefixed with `i`. -/
def Cfg.candsLE (cfg : Cfg) (k : ℕ) : List (List ℕ) :=
  (List.range cfg.N).flatMap (fun i =>
    (combos k (cfg.neighbor i)).map (fun c => i :: c))

/-- The exhaustive fallback of `CechComplexLE.verify`: some pair `(i, j)` of
`cells` has a circle-intersection point lying inside every other cell.
(The source first collects all `(p, i, j)` triples, then scans them;
the resulting boolean is this nested `any`.) -/
def Cfg.fallbackLE (cfg : Cfg) (cells : List ℕ) : Bool :=
  anyP (fun ij : ℕ × ℕ =>
      anyP (fun p => allP (fun c => c = ij.1 ∨ c = ij.2 ∨ cfg.inCell p c) cells = true)
        (cfg.inter ij.1 ij.2) = true)
    (pairsList cells)

/-- `CechComplexLE.verify`. -/
def Cfg.verifyLE (cfg : Cfg) (cells : List ℕ) : Bool :=
  if cfg.containsAllB cells (cfg.findSmallest cells) then true
  else cfg.fallbackLE cells

/-- Whether `self.maxK and k > self.maxK` is truthy: note that `maxK = None`
and `maxK = 0` are both falsy in Python, so neither ever cuts the loop. -/
def maxKCut (maxK : Option ℕ) (k : ℕ) : Bool :=
  match maxK with
  | none => false
  | some m => if m ≠ 0 ∧ k > m then true else false

/-- The levels (of dimension `≥ 2`) appended by `CechComplexLE.simk`, starting
at level index `k`.  The source loop appends to `self.S`; appending the list
produced here is the same. -/
def Cfg.tailLE (cfg : Cfg) (maxK : Option ℕ) : ℕ → ℕ → List (List (List ℕ))
  | 0, _ => []
  | fuel + 1, k =>
      if maxKCut maxK k then []
      else
        let Sk := filterP (fun cand => cfg.verifyLE cand = true) (cfg.candsLE k)
        if Sk = [] then []
        else Sk :: cfg.tailLE maxK fuel (k + 1)

/-- `CechComplexLE.cech(positions, radius, maxK)`: `[sim0, sim1]` followed by
the higher levels. -/
def cechLE (cfg : Cfg) (maxK : Option ℕ) : List (List (List ℕ)) :=
  [cfg.sim0, cfg.sim1] ++ cfg.tailLE maxK (cfg.N + 1) 2

/-! ## Optimized constructor `CechComplex` -/

/-- `CechComplex.getCandidates(k)`: extend each simplex `s` of the previous
level by each common neighbor of its vertices not already in `s` (ascending;
Python set order is unspecified). -/
def Cfg.candsOpt (cfg : Cfg) (prev : List (List ℕ)) : List (List ℕ) :=
  prev.flatMap (fun s =>
    (filterP (fun c => (∀ i ∈ s, c ∈ cfg.neighbor i) ∧ c ∉ s) (List.range cfg.N)).map
      (fun c => s ++ [c]))

/-- The restricted fallback of `CechComplex.verify`: only pairs
`(cells[i], cells[j])` with `i = len(cells) - 1` and `j < i` are tried; a
point must lie inside every cell other than positions `i` and `j`. -/
def Cfg.fallbackOpt (cfg : Cfg) (cells : List ℕ) : Option Point :=
  let i := cells.length - 1
  firstMap (fun j =>
      firstHit (fun p =>
          allP (fun kc : ℕ × ℕ => kc.1 = i ∨ kc.1 = j ∨ cfg.inCell p kc.2)
            cells.enum = true)
        (cfg.inter (cells.getD i 0) (cells.getD j 0)))
    (List.range i)

/-- `CechComplex.verify`: returns `some (verified, witness)`, or `none` where
the Python code would raise `KeyError` on the memo lookup.  On the failing
branch the source returns `(False, [])`; the unused witness is modelled by
`(0, 0)`. -/
def Cfg.verifyOpt (cfg : Cfg) (memo : List (Finset ℕ × Point)) (cells : List ℕ) :
    Option (Bool × Point) :=
  let m := cfg.findSmallest cells
  if cfg.containsAllB cells m then some (true, cfg.P m)
  else
    let newCand := cells.getD (cells.length - 1) 0
    let preSet := cells.dropLast
    let fallback : Option (Bool × Point) :=
      match cfg.fallbackOpt cells with
      | some p => some (true, p)
      | none => some (false, ((0 : ℝ), (0 : ℝ)))
    if preSet.length = 2 then
      match firstHit (fun p => cfg.inCell p newCand) (cfg.inter (cells.getD 0 0) (cells.getD 1 0)) with
      | some p => some (true, p)
      | none => fallback
    else if preSet.length > 2 then
      match memoLookup preSet.toFinset memo with
      | none => none
      | some w => if cfg.inCell w newCand then some (true, w) else fallback
    else fallback

/-- State of the optimized per-level loop: the `verified` dict (only key
membership is ever read), the memo table `self.intersections`, and the
accumulated `Sk`. -/
structure OptState where
  verified : Finset (Finset ℕ)
  memo : List (Finset ℕ × Point)
  sk : List (List ℕ)

/-- The candidate loop of `CechComplex.simk._simk`: verify each candidate
whose signature is new, record the result, memoize the witness and append the
candidate on success.  `none` propagates a `KeyError`. -/
def Cfg.foldOpt (cfg : Cfg) : List (List ℕ) → OptState → Option OptState
  | [], st => some st
  | cand :: rest, st =>
      if cand.toFinset ∈ st.verified then cfg.foldOpt rest st
      else
        match cfg.verifyOpt st.memo cand with
        | none => none
        | some (b, w) =>
            if b then
              cfg.foldOpt rest
                ⟨insert cand.toFinset st.verified, (cand.toFinset, w) :: st.memo,
                  st.sk ++ [cand]⟩
            else
              cfg.foldOpt rest ⟨insert cand.toFinset st.verified, st.memo, st.sk⟩

/-- The levels (of dimension `≥ 2`) appended by `CechComplex.simk` starting at
level index `k`, with `prev` the previous level; `verified` and the memo table
persist across levels. -/
def Cfg.tailOpt (cfg : Cfg) (maxK : Option ℕ) :
    ℕ → ℕ → Finset (Finset ℕ) → List (Finset ℕ × Point) → List (List ℕ) →
    Option (List (List (List ℕ)))
  | 0, _, _, _, _ => some []
  | fuel + 1, k, verified, memo, prev =>
      if maxKCut maxK k then some []
      else
        match cfg.foldOpt (cfg.candsOpt prev) ⟨verified, memo, []⟩ with
        | none => none
        | some st =>
            if st.sk = [] then some []
            else
              match cfg.tailOpt maxK fuel (k + 1) st.verified st.memo st.sk with
              | none => none
              | some tl => some (st.sk :: tl)

/-- `CechComplex.cech(positions, radius, maxK)`: `[sim0, sim1]` followed by the
higher levels; `none` models a `KeyError` escaping the construction. -/
def cechOpt (cfg : Cfg) (maxK : Option ℕ) : Option (List (List (List ℕ))) :=
  match cfg.tailOpt maxK (cfg.N + 1) 2 ∅ [] cfg.sim1 with
  | none => none
  | some tl => some ([cfg.sim0, cfg.sim1] ++ tl)

/-- The set of canonical index-sets of level `k` of a complex `S` (levels are
compared as sets of sets throughout). -/
def lvl (S : List (List (List ℕ))) (k : ℕ) : Finset (Finset ℕ) :=
  ((S.getD k []).map List.toFinset).toFinset

/-! ## Basic facts about the metric expressions -/

/-- Distance between two plane points, as the source writes it. -/
def distP (p q : Point) : ℝ :=
  Real.sqrt ((p.1 - q.1) ^ 2 + (p.2 - q.2) ^ 2)

theorem dist_eq_distP (cfg : Cfg) (i j : ℕ) : cfg.dist i j = distP (cfg.P i) (cfg.P j) := rfl

theorem distP_nonneg (p q : Point) : 0 ≤ distP p q := Real.sqrt_nonneg _

theorem distP_comm (p q : Point) : distP p q = distP q p := by
  unfold distP; congr 1; ring

theorem distP_sq (p q : Point) :
    distP p q ^ 2 = (p.1 - q.1) ^ 2 + (p.2 - q.2) ^ 2 :=
  Real.sq_sqrt (by positivity)

theorem Cfg.dist_comm (cfg : Cfg) (i j : ℕ) : cfg.dist i j = cfg.dist j i := by
  rw [dist_eq_distP, dist_eq_distP, distP_comm]

/-- Cauchy–Schwarz step for the planar triangle inequality. -/
theorem inner_le_distP_mul (p q r : Point) :
    (p.1 - q.1) * (q.1 - r.1) + (p.2 - q.2) * (q.2 - r.2) ≤ distP p q * distP q r := by
  set L := (p.1 - q.1) * (q.1 - r.1) + (p.2 - q.2) * (q.2 - r.2) with hL
  rcases le_or_lt L 0 with h | h
  · exact h.trans (mul_nonneg (distP_nonneg p q) (distP_nonneg q r))
  · have hA : (0 : ℝ) ≤ (p.1 - q.1) ^ 2 + (p.2 - q.2) ^ 2 := by positivity
    have hmul : L ^ 2 ≤
        ((p.1 - q.1) ^ 2 + (p.2 - q.2) ^ 2) * ((q.1 - r.1) ^ 2 + (q.2 - r.2) ^ 2) := by
      nlinarith [sq_nonneg ((p.1 - q.1) * (q.2 - r.2) - (p.2 - q.2) * (q.1 - r.1))]
    have hprod : distP p q * distP q r =
        Real.sqrt (((p.1 - q.1) ^ 2 + (p.2 - q.2) ^ 2) * ((q.1 - r.1) ^ 2 + (q.2 - r.2) ^ 2)) :=
      (Real.sqrt_mul hA _).symm
    calc L = Real.sqrt (L ^ 2) := (Real.sqrt_sq h.le).symm
      _ ≤ Real.sqrt (((p.1 - q.1) ^ 2 + (p.2 - q.2) ^ 2) * ((q.1 - r.1) ^ 2 + (q.2 - r.2) ^ 2)) :=
          Real.sqrt_le_sqrt hmul
      _ = distP p q * distP q r := hprod.symm

theorem distP_triangle (p q r : Point) : distP p r ≤ distP p q + distP q r := by
  rw [distP, Real.sqrt_le_iff]
  refine ⟨add_nonneg (distP_nonneg p q) (distP_nonneg q r), ?_⟩
  have h1 := distP_sq p q
  have h2 := distP_sq q r
  have h3 := inner_le_distP_mul p q r
  nlinarith [h1, h2, h3]

/-- Closed-disc membership, phrased with the distance (for `radius ≥ 0`). -/
theorem inCell_iff_distP (cfg : Cfg) (p : Point) (i : ℕ) (hr : 0 ≤ cfg.R i) :
    cfg.inCell p i ↔ distP p (cfg.P i) ≤ cfg.R i := by
  unfold Cfg.inCell distP
  rw [Real.sqrt_le_left hr]
  constructor <;> intro h <;> nlinarith [h]

/-- If every point of disc `i` lies in disc `j`, then
`dist(i, j) + radius[i] ≤ radius[j]` (radii nonnegative). -/
theorem disc_subset_dist (cfg : Cfg) (i j : ℕ) (hi : 0 ≤ cfg.R i) (hj : 0 ≤ cfg.R j)
    (h : ∀ p, cfg.inCell p i → cfg.inCell p j) :
    cfg.dist i j + cfg.R i ≤ cfg.R j := by
  set ci := cfg.P i with hci
  set cj := cfg.P j with hcj
  have hnn : (0 : ℝ) ≤ (ci.1 - cj.1) ^ 2 + (ci.2 - cj.2) ^ 2 := by positivity
  rcases eq_or_lt_of_le hnn with hzero | hpos
  · -- coincident centers
    have hd : cfg.dist i j = 0 := by
      rw [dist_eq_distP, distP, ← hci, ← hcj, ← hzero, Real.sqrt_zero]
    have h1 : (ci.1 - cj.1) ^ 2 = 0 := by nlinarith [sq_nonneg (ci.1 - cj.1), sq_nonneg (ci.2 - cj.2)]
    have h2 : (ci.2 - cj.2) ^ 2 = 0 := by nlinarith [sq_nonneg (ci.1 - cj.1), sq_nonneg (ci.2 - cj.2)]
    have e1 : ci.1 = cj.1 := by nlinarith [h1]
    have e2 : ci.2 = cj.2 := by nlinarith [h2]
    have hq : cfg.inCell (ci.1 + cfg.R i, ci.2) i := by
      show (ci.1 - (ci.1 + cfg.R i)) ^ 2 + (ci.2 - ci.2) ^ 2 ≤ cfg.R i ^ 2
      nlinarith []
    have hq' := h _ hq
    have hq'2 : (cj.1 - (ci.1 + cfg.R i)) ^ 2 + (cj.2 - ci.2) ^ 2 ≤ cfg.R j ^ 2 := hq'
    rw [hd]
    nlinarith [hq'2, e1, e2]
  · -- distinct centers
    have hdpos : 0 < cfg.dist i j := by
      rw [dist_eq_distP, distP, ← hci, ← hcj]
      exact Real.sqrt_pos.2 hpos
    set d := cfg.dist i j with hdd
    have hsq : d ^ 2 = (ci.1 - cj.1) ^ 2 + (ci.2 - cj.2) ^ 2 := by
      rw [hdd, dist_eq_distP, ← hci, ← hcj, distP_sq]
    have hd0 : d ≠ 0 := ne_of_gt hdpos
    set q : Point := (ci.1 + cfg.R i / d * (ci.1 - cj.1), ci.2 + cfg.R i / d * (ci.2 - cj.2))
      with hqdef
    have hq : cfg.inCell q i := by
      show (ci.1 - q.1) ^ 2 + (ci.2 - q.2) ^ 2 ≤ cfg.R i ^ 2
      have : (ci.1 - q.1) ^ 2 + (ci.2 - q.2) ^ 2 = cfg.R i ^ 2 := by
        rw [hqdef]
        field_simp
        nlinarith [hsq]
      linarith [this.le]
    have hq' : (cj.1 - q.1) ^ 2 + (cj.2 - q.2) ^ 2 ≤ cfg.R j ^ 2 := h _ hq
    have hkey : (cj.1 - q.1) ^ 2 + (cj.2 - q.2) ^ 2 = (d + cfg.R i) ^ 2 := by
      rw [hqdef]
      field_simp
      nlinarith [hsq]
    nlinarith [hq', hkey, hdpos, hi, hj]

/-- If `dist(i, j) + radius[i] ≤ radius[j]`, disc `i` lies inside disc `j`
(radii nonnegative). -/
theorem dist_disc_subset (cfg : Cfg) (i j : ℕ) (hi : 0 ≤ cfg.R i) (hj : 0 ≤ cfg.R j)
    (h : cfg.dist i j + cfg.R i ≤ cfg.R j) :
    ∀ p, cfg.inCell p i → cfg.inCell p j := by
  intro p hp
  rw [inCell_iff_distP cfg p i hi] at hp
  rw [inCell_iff_distP cfg p j hj]
  calc distP p (cfg.P j) ≤ distP p (cfg.P i) + distP (cfg.P i) (cfg.P j) :=
        distP_triangle _ _ _
    _ ≤ cfg.R i + cfg.dist i j := by rw [← dist_eq_distP]; linarith [hp]
    _ ≤ cfg.R j := by linarith [h]

/-! ## Claim C6 -/

/-- A two-ball configuration with nested concentric discs: disc `1`
(radius 1) lies inside disc `0` (radius 2). -/
def cfgC6 : Cfg := ⟨[((0 : ℝ), (0 : ℝ)), ((0 : ℝ), (0 : ℝ))], [2, 1]⟩

theorem cfgC6_dist : cfgC6.dist 0 1 = 0 := by
  show Real.sqrt (((0 : ℝ) - 0) ^ 2 + ((0 : ℝ) - 0) ^ 2) = 0
  norm_num

/-- C6, counterexample: `isCellInsideCell(i, j)` is computed with
`abs(radius[i] - radius[j])`, so for `i = 0`, `j = 1` with
`radius[1] < radius[0]` the test is `True` here, while the claim requires it
to be false whenever `radius[j] < radius[i]`; the claimed test
`distance ≤ radius[j] - radius[i]` is also false at this input. -/
theorem claim_C6_counterexample :
    cfgC6.R 1 < cfgC6.R 0 ∧ cfgC6.isInside 0 1 ∧
      ¬ (cfgC6.dist 0 1 ≤ cfgC6.R 1 - cfgC6.R 0) := by
  have h0 : cfgC6.R 0 = 2 := rfl
  have h1 : cfgC6.R 1 = 1 := rfl
  refine ⟨by rw [h0, h1]; norm_num, ?_, ?_⟩
  · show cfgC6.dist 0 1 ≤ |cfgC6.R 0 - cfgC6.R 1|
    rw [cfgC6_dist, h0, h1]
    norm_num
  · rw [cfgC6_dist, h0, h1]
    norm_num

/-- C6, amended: `isCellInsideCell(i, j)` tests
`distance(i, j) ≤ |radius[i] - radius[j]|`; for nonnegative radii this holds
iff one of the two closed discs is contained in the other (so when
`radius[j] < radius[i]` it returns true exactly when disc `j` lies inside
disc `i`, rather than always returning false). -/
theorem claim_C6_amended (cfg : Cfg) (i j : ℕ) (hi : 0 ≤ cfg.R i) (hj : 0 ≤ cfg.R j) :
    cfg.isInside i j ↔
      ((∀ p, cfg.inCell p i → cfg.inCell p j) ∨ (∀ p, cfg.inCell p j → cfg.inCell p i)) := by
  constructor
  · intro h
    rcases le_total (cfg.R i) (cfg.R j) with hle | hle
    · left
      have habs : |cfg.R i - cfg.R j| = cfg.R j - cfg.R i := by
        rw [abs_of_nonpos (by linarith [hle])]; ring
      refine dist_disc_subset cfg i j hi hj ?_
      have := h
      unfold Cfg.isInside at this
      rw [habs] at this
      linarith [this]
    · right
      have habs : |cfg.R i - cfg.R j| = cfg.R i - cfg.R j := abs_of_nonneg (by linarith [hle])
      refine dist_disc_subset cfg j i hj hi ?_
      have := h
      unfold Cfg.isInside at this
      rw [habs] at this
      rw [cfg.dist_comm j i]
      linarith [this]
  · intro h
    rcases h with h | h
    · have := disc_subset_dist cfg i j hi hj h
      unfold Cfg.isInside
      have h2 : cfg.R j - cfg.R i ≤ |cfg.R i - cfg.R j| := by
        rw [abs_sub_comm]; exact le_abs_self _
      linarith [this, h2]
    · have := disc_subset_dist cfg j i hj hi h
      unfold Cfg.isInside
      rw [cfg.dist_comm j i] at this
      have h2 : cfg.R i - cfg.R j ≤ |cfg.R i - cfg.R j| := le_abs_self _
      linarith [this, h2]

/-- Witness for the amended C6 at a concrete input: for the nested concentric
pair the test is true and indeed one disc contains the other. -/
theorem claim_C6_witness :
    (0 : ℝ) ≤ cfgC6.R 0 ∧ (0 : ℝ) ≤ cfgC6.R 1 ∧
      (cfgC6.isInside 0 1 ↔
        ((∀ p, cfgC6.inCell p 0 → cfgC6.inCell p 1) ∨
          (∀ p, cfgC6.inCell p 1 → cfgC6.inCell p 0))) := by
  have h0 : cfgC6.R 0 = 2 := rfl
  have h1 : cfgC6.R 1 = 1 := rfl
  refine ⟨by rw [h0]; norm_num, by rw [h1]; norm_num, ?_⟩
  exact claim_C6_amended cfgC6 0 1 (by rw [h0]; norm_num) (by rw [h1]; norm_num)

/-! ## Claim C7 -/

/-- If the two centers are at distance `0`, one of the three guards of
`get_intersections` fires, so the result is `[]`. -/
theorem get_intersections_dist_zero (x0 y0 r0 x1 y1 r1 : ℝ)
    (hd : Real.sqrt ((x1 - x0) ^ 2 + (y1 - y0) ^ 2) = 0) :
    get_intersections x0 y0 r0 x1 y1 r1 = [] := by
  unfold get_intersections
  split_ifs with h1 h2 h3
  · rfl
  · rfl
  · rfl
  · exfalso
    rw [hd] at h2 h3
    push_neg at h2 h3
    have : r0 = r1 := by
      have habs : |r0 - r1| ≤ 0 := h2
      have := abs_nonneg (r0 - r1)
      have : |r0 - r1| = 0 := le_antisymm habs this
      have := abs_eq_zero.1 this
      linarith [this]
    exact absurd this (h3 rfl)

/-- C7: the circle-intersection primitive returns the empty list whenever the
centers coincide (in particular with unequal radii), whenever the distance
exceeds the sum of the radii, and whenever the distance is below the absolute
radius difference; and the division-carrying branch is only ever reached with
a strictly positive distance. -/
theorem claim_C7 (x0 y0 r0 x1 y1 r1 : ℝ) :
    (((x0, y0) : Point) = (x1, y1) → get_intersections x0 y0 r0 x1 y1 r1 = []) ∧
    (Real.sqrt ((x1 - x0) ^ 2 + (y1 - y0) ^ 2) > r0 + r1 →
      get_intersections x0 y0 r0 x1 y1 r1 = []) ∧
    (Real.sqrt ((x1 - x0) ^ 2 + (y1 - y0) ^ 2) < |r0 - r1| →
      get_intersections x0 y0 r0 x1 y1 r1 = []) ∧
    (get_intersections x0 y0 r0 x1 y1 r1 ≠ [] →
      0 < Real.sqrt ((x1 - x0) ^ 2 + (y1 - y0) ^ 2)) := by
  refine ⟨?_, ?_, ?_, ?_⟩
  · intro h
    have hx : x0 = x1 := congrArg Prod.fst h
    have hy : y0 = y1 := congrArg Prod.snd h
    apply get_intersections_dist_zero
    rw [← hx, ← hy]
    norm_num
  · intro h
    unfold get_intersections
    rw [if_pos h]
  · intro h
    unfold get_intersections
    split_ifs with h1
    · rfl
    · rfl
  · intro h
    rcases lt_or_eq_of_le (Real.sqrt_nonneg ((x1 - x0) ^ 2 + (y1 - y0) ^ 2)) with hlt | heq
    · exact hlt
    · exact absurd (get_intersections_dist_zero x0 y0 r0 x1 y1 r1 heq.symm) h

/-- Witness for C7 at a concrete input: coincident centers with unequal radii
(the configuration the spec singles out as the division hazard) produce an
empty intersection list. -/
theorem claim_C7_witness : get_intersections 0 0 1 0 0 2 = [] :=
  (claim_C7 0 0 1 0 0 2).1 rfl

/-! ## The concentric three-ball scenario (spec scenario B)

Three balls centered at `(0, 0)` with radii `1`, `2`, `3`.  Used for claims
C9 (the scenario itself) and C4 (the `maxK = 0` cutoff). -/

/-- Scenario B: three concentric balls at `(0,0)`, radii `1, 2, 3`. -/
def cfgC9 : Cfg := ⟨[((0 : ℝ), (0 : ℝ)), ((0 : ℝ), (0 : ℝ)), ((0 : ℝ), (0 : ℝ))], [1, 2, 3]⟩

theorem cfgC9_P (i : ℕ) : cfgC9.P i = ((0 : ℝ), 0) := by
  match i with
  | 0 => rfl
  | 1 => rfl
  | 2 => rfl
  | n + 3 => rfl

theorem cfgC9_dist (i j : ℕ) : cfgC9.dist i j = 0 := by
  unfold Cfg.dist
  rw [cfgC9_P, cfgC9_P]
  norm_num

theorem cfgC9_R0 : cfgC9.R 0 = 1 := rfl

theorem cfgC9_R1 : cfgC9.R 1 = 2 := rfl

theorem cfgC9_R2 : cfgC9.R 2 = 3 := rfl

theorem cfgC9_neighbor0 : cfgC9.neighbor 0 = [1, 2] := by
  show filterP _ (List.range cfgC9.N) = [1, 2]
  norm_num [show List.range cfgC9.N = [0, 1, 2] from rfl, filterP,
    Cfg.intersects, cfgC9_dist, cfgC9_R0, cfgC9_R1, cfgC9_R2]

theorem cfgC9_neighbor1 : cfgC9.neighbor 1 = [0, 2] := by
  show filterP _ (List.range cfgC9.N) = [0, 2]
  norm_num [show List.range cfgC9.N = [0, 1, 2] from rfl, filterP,
    Cfg.intersects, cfgC9_dist, cfgC9_R0, cfgC9_R1, cfgC9_R2]

theorem cfgC9_neighbor2 : cfgC9.neighbor 2 = [0, 1] := by
  show filterP _ (List.range cfgC9.N) = [0, 1]
  norm_num [show List.range cfgC9.N = [0, 1, 2] from rfl, filterP,
    Cfg.intersects, cfgC9_dist, cfgC9_R0, cfgC9_R1, cfgC9_R2]

theorem cfgC9_sim0 : cfgC9.sim0 = [[0], [1], [2]] := rfl

theorem cfgC9_sim1 : cfgC9.sim1 = [[0, 1], [0, 2], [1, 2]] := by
  show (List.range cfgC9.N).flatMap _ = _
  norm_num [show List.range cfgC9.N = [0, 1, 2] from rfl, List.flatMap_cons,
    List.flatMap_nil, filterP, Cfg.intersects, cfgC9_dist, cfgC9_R0, cfgC9_R1, cfgC9_R2]

theorem cfgC9_smallest : cfgC9.findSmallest [0, 1, 2] = 0 := by
  norm_num [Cfg.findSmallest, List.foldl, cfgC9_R0, cfgC9_R1, cfgC9_R2]

theorem cfgC9_containsAll : cfgC9.containsAllB [0, 1, 2] 0 = true := by
  norm_num [Cfg.containsAllB, allP, Cfg.isInside, cfgC9_dist, cfgC9_R0, cfgC9_R1, cfgC9_R2,
    abs_nonneg]

theorem cfgC9_verify : cfgC9.verifyOpt [] [0, 1, 2] = some (true, ((0 : ℝ), 0)) := by
  rw [Cfg.verifyOpt, cfgC9_smallest, cfgC9_containsAll, if_pos rfl, cfgC9_P]

theorem cfgC9_cands2 : cfgC9.candsOpt [[0, 1], [0, 2], [1, 2]] =
    [[0, 1, 2], [0, 2, 1], [1, 2, 0]] := by
  norm_num [Cfg.candsOpt, List.flatMap_cons, List.flatMap_nil,
    show List.range cfgC9.N = [0, 1, 2] from rfl, filterP,
    cfgC9_neighbor0, cfgC9_neighbor1, cfgC9_neighbor2]

theorem cfgC9_cands3 : cfgC9.candsOpt [[0, 1, 2]] = [] := by
  norm_num [Cfg.candsOpt, List.flatMap_cons, List.flatMap_nil,
    show List.range cfgC9.N = [0, 1, 2] from rfl, filterP,
    cfgC9_neighbor0, cfgC9_neighbor1, cfgC9_neighbor2]

theorem cfgC9_fold : cfgC9.foldOpt [[0, 1, 2], [0, 2, 1], [1, 2, 0]] ⟨∅, [], []⟩ =
    some ⟨{[0, 1, 2].toFinset}, [([0, 1, 2].toFinset, ((0 : ℝ), 0))], [[0, 1, 2]]⟩ := by
  rw [Cfg.foldOpt, if_neg (by decide), cfgC9_verify]
  rfl

/-- The full optimized run on scenario B, for any `maxK` whose cut is inactive
at level indices `2` and `3` (this covers both `maxK = None` and `maxK = 0`). -/
theorem cfgC9_run (mk : Option ℕ) (h2 : maxKCut mk 2 = false) (h3 : maxKCut mk 3 = false) :
    cechOpt cfgC9 mk =
      some [[[0], [1], [2]], [[0, 1], [0, 2], [1, 2]], [[0, 1, 2]]] := by
  have hN : cfgC9.N + 1 = 4 := rfl
  have htail3 : cfgC9.tailOpt mk 3 3 {[0, 1, 2].toFinset}
      [([0, 1, 2].toFinset, ((0 : ℝ), 0))] [[0, 1, 2]] = some [] := by
    rw [Cfg.tailOpt, h3, if_neg (by simp), cfgC9_cands3, Cfg.foldOpt]
    rfl
  have htail2 : cfgC9.tailOpt mk 4 2 ∅ [] [[0, 1], [0, 2], [1, 2]] = some [[[0, 1, 2]]] := by
    rw [Cfg.tailOpt, h2, if_neg (by simp), cfgC9_cands2, cfgC9_fold]
    show (if ([[0, 1, 2]] : List (List ℕ)) = [] then some []
      else
        match cfgC9.tailOpt mk 3 3 {[0, 1, 2].toFinset}
            [([0, 1, 2].toFinset, ((0 : ℝ), 0))] [[0, 1, 2]] with
        | none => none
        | some tl => some ([[0, 1, 2]] :: tl)) = some [[[0, 1, 2]]]
    rw [if_neg (by simp), htail3]
  rw [cechOpt, hN, cfgC9_sim1, htail2]
  rfl

/-- The full baseline run on scenario B, for any `maxK` whose cut is inactive
at level indices `2` and `3`.  The baseline does not deduplicate, so level 2
holds the triangle three times (once per generating vertex); as a set it is
the single simplex `{0, 1, 2}`. -/
theorem cfgC9_runLE (mk : Option ℕ) (h2 : maxKCut mk 2 = false) (h3 : maxKCut mk 3 = false) :
    cechLE cfgC9 mk =
      [[[0], [1], [2]], [[0, 1], [0, 2], [1, 2]],
        [[0, 1, 2], [1, 0, 2], [2, 0, 1]]] := by
  have hN : cfgC9.N + 1 = 4 := rfl
  have hcands : cfgC9.candsLE 2 = [[0, 1, 2], [1, 0, 2], [2, 0, 1]] := by
    norm_num [Cfg.candsLE, List.flatMap_cons, List.flatMap_nil,
      show List.range cfgC9.N = [0, 1, 2] from rfl, combos,
      cfgC9_neighbor0, cfgC9_neighbor1, cfgC9_neighbor2]
  have hcands3 : cfgC9.candsLE 3 = [] := by
    norm_num [Cfg.candsLE, List.flatMap_cons, List.flatMap_nil,
      show List.range cfgC9.N = [0, 1, 2] from rfl, combos,
      cfgC9_neighbor0, cfgC9_neighbor1, cfgC9_neighbor2]
  have hv1 : cfgC9.verifyLE [0, 1, 2] = true := by
    rw [Cfg.verifyLE, cfgC9_smallest, cfgC9_containsAll, if_pos rfl]
  have hs2 : cfgC9.findSmallest [1, 0, 2] = 0 := by
    norm_num [Cfg.findSmallest, List.foldl, cfgC9_R0, cfgC9_R1, cfgC9_R2]
  have hc2 : cfgC9.containsAllB [1, 0, 2] 0 = true := by
    norm_num [Cfg.containsAllB, allP, Cfg.isInside, cfgC9_dist, cfgC9_R0, cfgC9_R1, cfgC9_R2,
      abs_nonneg]
  have hv2 : cfgC9.verifyLE [1, 0, 2] = true := by
    rw [Cfg.verifyLE, hs2, hc2, if_pos rfl]
  have hs3 : cfgC9.findSmallest [2, 0, 1] = 0 := by
    norm_num [Cfg.findSmallest, List.foldl, cfgC9_R0, cfgC9_R1, cfgC9_R2]
  have hc3 : cfgC9.containsAllB [2, 0, 1] 0 = true := by
    norm_num [Cfg.containsAllB, allP, Cfg.isInside, cfgC9_dist, cfgC9_R0, cfgC9_R1, cfgC9_R2,
      abs_nonneg]
  have hv3 : cfgC9.verifyLE [2, 0, 1] = true := by
    rw [Cfg.verifyLE, hs3, hc3, if_pos rfl]
  rw [cechLE, hN, Cfg.tailLE, h2, if_neg (by simp), hcands]
  rw [show filterP (fun cand => cfgC9.verifyLE cand = true)
        [[0, 1, 2], [1, 0, 2], [2, 0, 1]] = [[0, 1, 2], [1, 0, 2], [2, 0, 1]] by
    simp [filterP, hv1, hv2, hv3]]
  rw [if_neg (by simp)]
  rw [Cfg.tailLE, h3, if_neg (by simp), hcands3]
  rw [show filterP (fun cand => cfgC9.verifyLE cand = true) ([] : List (List ℕ)) = [] from rfl]
  rw [if_pos rfl, cfgC9_sim0, cfgC9_sim1]
  rfl

/-! ## Claim C9 -/

/-- C9: on scenario B the optimized constructor returns levels
`{{0},{1},{2}}`, `{{0,1},{0,2},{1,2}}`, `{{0,1,2}}`; the triangle is verified
by the containment shortcut (`findSmallest` picks ball `0`, the minimum-radius
ball, and the containment loop succeeds), with witness point `(0, 0)`, the
center of ball `0`. -/
theorem claim_C9 :
    cechOpt cfgC9 none =
      some [[[0], [1], [2]], [[0, 1], [0, 2], [1, 2]], [[0, 1, 2]]] ∧
    cfgC9.verifyOpt [] [0, 1, 2] = some (true, ((0 : ℝ), 0)) ∧
    cfgC9.findSmallest [0, 1, 2] = 0 ∧
    cfgC9.containsAllB [0, 1, 2] 0 = true ∧
    cfgC9.P 0 = ((0 : ℝ), 0) ∧
    cfgC9.R 0 ≤ cfgC9.R 1 ∧ cfgC9.R 0 ≤ cfgC9.R 2 := by
  refine ⟨cfgC9_run none rfl rfl, cfgC9_verify, cfgC9_smallest, cfgC9_containsAll,
    cfgC9_P 0, ?_, ?_⟩
  · rw [cfgC9_R0, cfgC9_R1]; norm_num
  · rw [cfgC9_R0, cfgC9_R2]; norm_num

/-! ## Claim C4 -/

theorem maxKCut_none (k : ℕ) : maxKCut none k = false := rfl

theorem maxKCut_zero (k : ℕ) : maxKCut (some 0) k = false := by
  simp [maxKCut]

theorem maxKCut_some_false_iff (d k : ℕ) :
    maxKCut (some d) k = false ↔ d = 0 ∨ k ≤ d := by
  show (if d ≠ 0 ∧ k > d then true else false) = false ↔ d = 0 ∨ k ≤ d
  split_ifs with h
  · simp only [false_iff]
    push_neg
    exact ⟨fun h0 => absurd h0 h.1, by omega⟩
  · simp only [true_iff]
    rcases Classical.em (d = 0) with h0 | h0
    · exact Or.inl h0
    · right
      by_contra hk
      exact h ⟨h0, by omega⟩

/-- C4, counterexample: with `maxDimension = 0` both constructors still
produce the full three-level complex on scenario B, because `self.maxK and
k > self.maxK` is falsy for `maxK = 0` (so the bound is ignored) and levels
0 and 1 are produced unconditionally; the claim requires no level of
dimension greater than `0` for `d = 0`. -/
theorem claim_C4_counterexample :
    cechOpt cfgC9 (some 0) =
      some [[[0], [1], [2]], [[0, 1], [0, 2], [1, 2]], [[0, 1, 2]]] ∧
    cechLE cfgC9 (some 0) =
      [[[0], [1], [2]], [[0, 1], [0, 2], [1, 2]], [[0, 1, 2], [1, 0, 2], [2, 0, 1]]] :=
  ⟨cfgC9_run (some 0) (maxKCut_zero 2) (maxKCut_zero 3),
    cfgC9_runLE (some 0) (maxKCut_zero 2) (maxKCut_zero 3)⟩

theorem tailLE_length (cfg : Cfg) (d : ℕ) (hd : 1 ≤ d) :
    ∀ fuel k, (cfg.tailLE (some d) fuel k).length ≤ d + 1 - k := by
  intro fuel
  induction fuel with
  | zero => intro k; simp [Cfg.tailLE]
  | succ fuel ih =>
      intro k
      rw [Cfg.tailLE]
      by_cases hcut : maxKCut (some d) k = true
      · rw [if_pos hcut]; simp
      · rw [if_neg hcut]
        by_cases hsk : filterP (fun cand => cfg.verifyLE cand = true) (cfg.candsLE k) = []
        · rw [if_pos hsk]; simp
        · rw [if_neg hsk]
          have hk : k ≤ d := by
            have := (maxKCut_some_false_iff d k).1 (Bool.of_not_eq_true hcut)
            omega
          have := ih (k + 1)
          simp only [List.length_cons]
          omega

theorem tailLE_mem_ne_nil (cfg : Cfg) (mk : Option ℕ) :
    ∀ fuel k L, L ∈ cfg.tailLE mk fuel k → L ≠ [] := by
  intro fuel
  induction fuel with
  | zero => intro k L hL; simp [Cfg.tailLE] at hL
  | succ fuel ih =>
      intro k L hL
      rw [Cfg.tailLE] at hL
      by_cases hcut : maxKCut mk k = true
      · rw [if_pos hcut] at hL; simp at hL
      · rw [if_neg hcut] at hL
        by_cases hsk : filterP (fun cand => cfg.verifyLE cand = true) (cfg.candsLE k) = []
        · rw [if_pos hsk] at hL; simp at hL
        · rw [if_neg hsk] at hL
          rcases List.mem_cons.1 hL with h | h
          · rw [h]; exact hsk
          · exact ih (k + 1) L h

theorem tailOpt_length (cfg : Cfg) (d : ℕ) (hd : 1 ≤ d) :
    ∀ fuel k verified memo prev t,
      cfg.tailOpt (some d) fuel k verified memo prev = some t →
      t.length ≤ d + 1 - k := by
  intro fuel
  induction fuel with
  | zero =>
      intro k verified memo prev t ht
      rw [Cfg.tailOpt] at ht
      cases ht
      simp
  | succ fuel ih =>
      intro k verified memo prev t ht
      rw [Cfg.tailOpt] at ht
      by_cases hcut : maxKCut (some d) k = true
      · rw [if_pos hcut] at ht; cases ht; simp
      · rw [if_neg hcut] at ht
        rcases hfold : cfg.foldOpt (cfg.candsOpt prev) ⟨verified, memo, []⟩ with _ | st
        · rw [hfold] at ht; cases ht
        · rw [hfold] at ht
          replace ht : (if st.sk = [] then some []
              else
                match cfg.tailOpt (some d) fuel (k + 1) st.verified st.memo st.sk with
                | none => none
                | some tl => some (st.sk :: tl)) = some t := ht
          by_cases hsk : st.sk = []
          · rw [if_pos hsk] at ht; cases ht; simp
          · rw [if_neg hsk] at ht
            rcases hrec : cfg.tailOpt (some d) fuel (k + 1) st.verified st.memo st.sk with
              _ | tl
            · rw [hrec] at ht; cases ht
            · rw [hrec] at ht
              replace ht : some (st.sk :: tl) = some t := ht
              cases ht
              have hk : k ≤ d := by
                have := (maxKCut_some_false_iff d k).1 (Bool.of_not_eq_true hcut)
                omega
              have := ih (k + 1) st.verified st.memo st.sk tl hrec
              simp only [List.length_cons]
              omega

theorem tailOpt_mem_ne_nil (cfg : Cfg) (mk : Option ℕ) :
    ∀ fuel k verified memo prev t L,
      cfg.tailOpt mk fuel k verified memo prev = some t → L ∈ t → L ≠ [] := by
  intro fuel
  induction fuel with
  | zero =>
      intro k verified memo prev t L ht hL
      rw [Cfg.tailOpt] at ht
      cases ht
      simp at hL
  | succ fuel ih =>
      intro k verified memo prev t L ht hL
      rw [Cfg.tailOpt] at ht
      by_cases hcut : maxKCut mk k = true
      · rw [if_pos hcut] at ht; cases ht; simp at hL
      · rw [if_neg hcut] at ht
        rcases hfold : cfg.foldOpt (cfg.candsOpt prev) ⟨verified, memo, []⟩ with _ | st
        · rw [hfold] at ht; cases ht
        · rw [hfold] at ht
          replace ht : (if st.sk = [] then some []
              else
                match cfg.tailOpt mk fuel (k + 1) st.verified st.memo st.sk with
                | none => none
                | some tl => some (st.sk :: tl)) = some t := ht
          by_cases hsk : st.sk = []
          · rw [if_pos hsk] at ht; cases ht; simp at hL
          · rw [if_neg hsk] at ht
            rcases hrec : cfg.tailOpt mk fuel (k + 1) st.verified st.memo st.sk with _ | tl
            · rw [hrec] at ht; cases ht
            · rw [hrec] at ht
              replace ht : some (st.sk :: tl) = some t := ht
              cases ht
              rcases List.mem_cons.1 hL with h | h
              · rw [h]; exact hsk
              · exact ih (k + 1) st.verified st.memo st.sk tl L hrec h

/-- C4, amended: for a configured bound `d ≥ 1` both constructors stop once
the level index exceeds `d`, so the returned complex has at most `d + 1`
levels, and every level beyond the two unconditional ones (dimensions 0 and
1) is nonempty, i.e. construction also stops at the first empty level.  For
`d = 0` the bound is ignored entirely (Python truthiness of `0`; see the
counterexample), and levels 0 and 1 are produced regardless of `d`. -/
theorem claim_C4_amended (cfg : Cfg) (d : ℕ) (hd : 1 ≤ d) :
    ((cechLE cfg (some d)).length ≤ d + 1 ∧
      ∀ L ∈ (cechLE cfg (some d)).drop 2, L ≠ []) ∧
    (∀ S, cechOpt cfg (some d) = some S →
      S.length ≤ d + 1 ∧ ∀ L ∈ S.drop 2, L ≠ []) := by
  constructor
  · constructor
    · have h := tailLE_length cfg d hd (cfg.N + 1) 2
      rw [cechLE]
      simp only [List.length_append, List.length_cons, List.length_nil]
      omega
    · intro L hL
      rw [cechLE] at hL
      rw [show (([cfg.sim0, cfg.sim1] ++ cfg.tailLE (some d) (cfg.N + 1) 2).drop 2 =
        cfg.tailLE (some d) (cfg.N + 1) 2) from rfl] at hL
      exact tailLE_mem_ne_nil cfg (some d) (cfg.N + 1) 2 L hL
  · intro S hS
    rw [cechOpt] at hS
    rcases htail : cfg.tailOpt (some d) (cfg.N + 1) 2 ∅ [] cfg.sim1 with _ | tl
    · rw [htail] at hS; cases hS
    · rw [htail] at hS
      cases hS
      constructor
      · have h := tailOpt_length cfg d hd (cfg.N + 1) 2 ∅ [] cfg.sim1 tl htail
        simp only [List.length_append, List.length_cons, List.length_nil]
        omega
      · intro L hL
        rw [show (([cfg.sim0, cfg.sim1] ++ tl).drop 2 = tl) from rfl] at hL
        exact tailOpt_mem_ne_nil cfg (some d) (cfg.N + 1) 2 ∅ [] cfg.sim1 tl L htail hL

/-- Witness for the amended C4: with `d = 1` on scenario B the bound cuts the
run at level index 2, so both complexes have exactly the two unconditional
levels. -/
theorem claim_C4_witness :
    (1 : ℕ) ≤ 1 ∧
      (((cechLE cfgC9 (some 1)).length ≤ 1 + 1 ∧
          ∀ L ∈ (cechLE cfgC9 (some 1)).drop 2, L ≠ []) ∧
        (∀ S, cechOpt cfgC9 (some 1) = some S →
          S.length ≤ 1 + 1 ∧ ∀ L ∈ S.drop 2, L ≠ [])) :=
  ⟨le_refl 1, claim_C4_amended cfgC9 1 (le_refl 1)⟩

/-! ## Claim C10: the memo lookup in `verify` never fails

Every candidate of level `k ≥ 3` extends a simplex stored (with its witness)
in the memo table at the previous level, so `self.intersections[frozenset(pre_set)]`
never raises `KeyError`; equivalently, the `Option`-threaded optimized
pipeline never returns `none`. -/

theorem memoLookup_isSome_cons (sig sig' : Finset ℕ) (w : Point)
    (memo : List (Finset ℕ × Point)) (h : (memoLookup sig memo).isSome = true) :
    (memoLookup sig ((sig', w) :: memo)).isSome = true := by
  rw [memoLookup]
  by_cases hs : sig' = sig
  · rw [if_pos hs]; rfl
  · rw [if_neg hs]; exact h

theorem memoLookup_self (sig : Finset ℕ) (w : Point) (memo : List (Finset ℕ × Point)) :
    (memoLookup sig ((sig, w) :: memo)).isSome = true := by
  rw [memoLookup, if_pos rfl]; rfl

/-- `CechComplex.verify` returns a value (does not raise) whenever the memo
table has an entry for the candidate's prefix, or the prefix is too short for
the memo branch to be taken. -/
theorem verifyOpt_isSome (cfg : Cfg) (memo : List (Finset ℕ × Point)) (cells : List ℕ)
    (h : 2 < cells.dropLast.length →
      (memoLookup cells.dropLast.toFinset memo).isSome = true) :
    (cfg.verifyOpt memo cells).isSome = true := by
  have hfb : ∀ x : Option Point, (match x with
      | some p => some (true, p)
      | none => some (false, ((0 : ℝ), (0 : ℝ)))).isSome = true := by
    intro x; rcases x with _ | p <;> rfl
  rw [Cfg.verifyOpt]
  by_cases h1 : cfg.containsAllB cells (cfg.findSmallest cells) = true
  · rw [if_pos h1]; rfl
  · rw [if_neg h1]
    by_cases h2 : cells.dropLast.length = 2
    · rw [if_pos h2]
      rcases hfh : firstHit (fun p => cfg.inCell p (cells.getD (cells.length - 1) 0))
          (cfg.inter (cells.getD 0 0) (cells.getD 1 0)) with _ | p
      · exact hfb _
      · rfl
    · rw [if_neg h2]
      by_cases h3 : cells.dropLast.length > 2
      · rw [if_pos h3]
        rcases hm : memoLookup cells.dropLast.toFinset memo with _ | w
        · rw [hm] at h
          exact absurd (h h3) (by simp)
        · show ((if cfg.inCell w (cells.getD (cells.length - 1) 0) then some (true, w)
            else match cfg.fallbackOpt cells with
              | some p => some (true, p)
              | none => some (false, ((0 : ℝ), (0 : ℝ)))).isSome) = true
          by_cases hw : cfg.inCell w (cells.getD (cells.length - 1) 0)
          · rw [if_pos hw]; rfl
          · rw [if_neg hw]; exact hfb _
      · rw [if_neg h3]; exact hfb _

theorem mem_candsOpt (cfg : Cfg) (prev : List (List ℕ)) (cand : List ℕ)
    (h : cand ∈ cfg.candsOpt prev) : ∃ s ∈ prev, ∃ c, cand = s ++ [c] := by
  rw [Cfg.candsOpt, List.mem_flatMap] at h
  obtain ⟨s, hs, hc⟩ := h
  rw [List.mem_map] at hc
  obtain ⟨c, _, hc⟩ := hc
  exact ⟨s, hs, c, hc.symm⟩

/-- The candidate loop succeeds and preserves the memo invariant: the memo
table only grows, and every simplex appended to the level keeps a memo
entry. -/
theorem foldOpt_some (cfg : Cfg) :
    ∀ (cands : List (List ℕ)) (st : OptState),
      (∀ cand ∈ cands, 3 ≤ cand.dropLast.length →
        (memoLookup cand.dropLast.toFinset st.memo).isSome = true) →
      (∀ s ∈ st.sk, (memoLookup s.toFinset st.memo).isSome = true) →
      ∃ st', cfg.foldOpt cands st = some st' ∧
        (∀ sig, (memoLookup sig st.memo).isSome = true →
          (memoLookup sig st'.memo).isSome = true) ∧
        (∀ s ∈ st'.sk, (memoLookup s.toFinset st'.memo).isSome = true) := by
  intro cands
  induction cands with
  | nil =>
      intro st _ h2
      exact ⟨st, rfl, fun sig h => h, h2⟩
  | cons cand rest ih =>
      intro st h1 h2
      rw [Cfg.foldOpt]
      by_cases hv : cand.toFinset ∈ st.verified
      · rw [if_pos hv]
        exact ih st (fun c hc => h1 c (List.mem_cons_of_mem _ hc)) h2
      · rw [if_neg hv]
        have hvs : (cfg.verifyOpt st.memo cand).isSome = true :=
          verifyOpt_isSome cfg st.memo cand
            (fun h3 => h1 cand (List.mem_cons_self _ _) h3)
        rcases hver : cfg.verifyOpt st.memo cand with _ | bw
        · rw [hver] at hvs; exact absurd hvs (by simp)
        · rcases bw with ⟨b, w⟩
          by_cases hb : b = true
          -- verified: memo and level both extended
          · subst hb
            have hgrow : ∀ sig, (memoLookup sig st.memo).isSome = true →
                (memoLookup sig ((cand.toFinset, w) :: st.memo)).isSome = true :=
              fun sig h => memoLookup_isSome_cons sig _ w st.memo h
            obtain ⟨st', hst', hg, hk⟩ :=
              ih ⟨insert cand.toFinset st.verified, (cand.toFinset, w) :: st.memo,
                  st.sk ++ [cand]⟩
                (fun c hc h3 => hgrow _ (h1 c (List.mem_cons_of_mem _ hc) h3))
                (by
                  intro s hs
                  rcases List.mem_append.1 hs with h | h
                  · exact hgrow _ (h2 s h)
                  · rw [List.mem_singleton.1 h]
                    exact memoLookup_self cand.toFinset w st.memo)
            exact ⟨st', hst', fun sig h => hg sig (hgrow sig h), hk⟩
          · have hb' : b = false := by
              rcases b with _ | _
              · rfl
              · exact absurd rfl hb
            subst hb'
            obtain ⟨st', hst', hg, hk⟩ :=
              ih ⟨insert cand.toFinset st.verified, st.memo, st.sk⟩
                (fun c hc h3 => h1 c (List.mem_cons_of_mem _ hc) h3) h2
            exact ⟨st', hst', hg, hk⟩

/-- The optimized level loop never raises: every previous-level simplex of
length `≥ 3` has a memo entry, so every verification call returns. -/
theorem tailOpt_some (cfg : Cfg) (mk : Option ℕ) :
    ∀ (fuel k : ℕ) (verified : Finset (Finset ℕ)) (memo : List (Finset ℕ × Point))
      (prev : List (List ℕ)),
      (∀ s ∈ prev, 3 ≤ s.length → (memoLookup s.toFinset memo).isSome = true) →
      ∃ t, cfg.tailOpt mk fuel k verified memo prev = some t := by
  intro fuel
  induction fuel with
  | zero =>
      intro k verified memo prev _
      exact ⟨[], rfl⟩
  | succ fuel ih =>
      intro k verified memo prev hprev
      rw [Cfg.tailOpt]
      by_cases hcut : maxKCut mk k = true
      · rw [if_pos hcut]; exact ⟨[], rfl⟩
      · rw [if_neg hcut]
        have hfold := foldOpt_some cfg (cfg.candsOpt prev) ⟨verified, memo, []⟩
          (by
            intro cand hc h3
            obtain ⟨s, hs, c, hcand⟩ := mem_candsOpt cfg prev cand hc
            rw [hcand, List.dropLast_concat] at h3 ⊢
            exact hprev s hs h3)
          (by intro s hs; simp at hs)
        obtain ⟨st', hst', _, hk⟩ := hfold
        rw [hst']
        by_cases hsk : st'.sk = []
        · refine ⟨[], ?_⟩
          show (if st'.sk = [] then some [] else _) = some []
          rw [if_pos hsk]
        · obtain ⟨tl, htl⟩ := ih (k + 1) st'.verified st'.memo st'.sk
            (fun s hs _ => hk s hs)
          refine ⟨st'.sk :: tl, ?_⟩
          show (if st'.sk = [] then some [] else
            match cfg.tailOpt mk fuel (k + 1) st'.verified st'.memo st'.sk with
            | none => none
            | some tl => some (st'.sk :: tl)) = some (st'.sk :: tl)
          rw [if_neg hsk, htl]

theorem mem_sim1_length (cfg : Cfg) (s : List ℕ) (h : s ∈ cfg.sim1) : s.length = 2 := by
  rw [Cfg.sim1, List.mem_flatMap] at h
  obtain ⟨i, _, hi⟩ := h
  rw [List.mem_map] at hi
  obtain ⟨j, _, hj⟩ := hi
  rw [← hj]
  rfl

/-- The optimized construction never fails (helper shared by several claims):
the `Option`-threaded pipeline always returns a complex. -/
theorem cechOpt_isSome (cfg : Cfg) (mk : Option ℕ) : ∃ S, cechOpt cfg mk = some S := by
  obtain ⟨t, ht⟩ := tailOpt_some cfg mk (cfg.N + 1) 2 ∅ [] cfg.sim1
    (by
      intro s hs h3
      have := mem_sim1_length cfg s hs
      omega)
  refine ⟨[cfg.sim0, cfg.sim1] ++ t, ?_⟩
  rw [cechOpt, ht]

/-- C10: on every input, the optimized construction runs to completion: the
`frozenset(pre_set)` memo lookup inside `CechComplex.verify` never misses
(modelled by the `Option`-threaded `cechOpt` never returning `none`), because
every candidate with more than 3 vertices extends a simplex that was verified
and memoized at the previous level. -/
theorem claim_C10 (cfg : Cfg) (mk : Option ℕ) : (cechOpt cfg mk).isSome = true := by
  obtain ⟨S, hS⟩ := cechOpt_isSome cfg mk
  rw [hS]
  rfl

/-! ## Claim C5 -/

/-- An invalid input: two positions but three radii (length mismatch), and a
negative radius. -/
def cfgC5 : Cfg := ⟨[((0 : ℝ), (0 : ℝ)), ((3 : ℝ), (0 : ℝ))], [-1, 1, 7]⟩

theorem cfgC5_dist01 : cfgC5.dist 0 1 = 3 := by
  show Real.sqrt (((0 : ℝ) - 3) ^ 2 + ((0 : ℝ) - 0) ^ 2) = 3
  rw [show (((0 : ℝ) - 3) ^ 2 + ((0 : ℝ) - 0) ^ 2) = 3 ^ 2 by norm_num]
  exact Real.sqrt_sq (by norm_num)

theorem cfgC5_sim1 : cfgC5.sim1 = [] := by
  have hint : ¬ cfgC5.intersects 0 1 := by
    rw [Cfg.intersects, cfgC5_dist01]
    show ¬ ((3 : ℝ) ≤ cfgC5.R 0 + cfgC5.R 1)
    rw [show cfgC5.R 0 = -1 from rfl, show cfgC5.R 1 = 1 from rfl]
    norm_num
  show (List.range cfgC5.N).flatMap _ = _
  rw [show List.range cfgC5.N = [0, 1] from rfl]
  simp only [List.flatMap_cons, List.flatMap_nil, filterP]
  rw [if_neg (show ¬ ((0 : ℕ) < 0 ∧ cfgC5.intersects 0 0) from fun h => absurd h.1 (by norm_num)),
    if_neg (show ¬ ((0 : ℕ) < 1 ∧ cfgC5.intersects 0 1) from fun h => hint h.2),
    if_neg (show ¬ ((1 : ℕ) < 0 ∧ cfgC5.intersects 1 0) from fun h => absurd h.1 (by norm_num)),
    if_neg (show ¬ ((1 : ℕ) < 1 ∧ cfgC5.intersects 1 1) from fun h => absurd h.1 (by norm_num))]
  rfl

/-- C5, counterexample: on an input with mismatched lengths (three radii for
two positions) and a negative radius, the optimized constructor returns a
complete complex normally — no error of any kind is raised and geometry does
run — contradicting the claim that such calls fail with an `InputError`
before any geometric computation. -/
theorem claim_C5_counterexample :
    cfgC5.pos.length ≠ cfgC5.rad.length ∧ (∃ r ∈ cfgC5.rad, r < 0) ∧
      cechOpt cfgC5 none = some [[[0], [1]], []] := by
  refine ⟨by norm_num [cfgC5], ⟨-1, by norm_num [cfgC5], by norm_num⟩, ?_⟩
  have htail : cfgC5.tailOpt none 3 2 ∅ [] [] = some [] := by
    rw [Cfg.tailOpt, if_neg (show ¬ (maxKCut none 2 = true) by simp [maxKCut])]
    rfl
  rw [cechOpt, show cfgC5.N + 1 = 3 from rfl, cfgC5_sim1, htail]
  rfl

/-- C5, amended: the construction performs no input validation at all.  For
every input with `len(radii) ≥ len(positions)` (extra radii are silently
ignored; no length check exists) and arbitrary — even negative — radius
values, the operation runs to completion and returns a complex whose level 0
is the list of singletons and whose level 1 is the list of intersecting
pairs; no `InputError` path exists. -/
theorem claim_C5_amended (pos : List Point) (rad : List ℝ) (mk : Option ℕ)
    (_h : pos.length ≤ rad.length) :
    ∃ S, cechOpt ⟨pos, rad⟩ mk = some S ∧
      S.getD 0 [] = Cfg.sim0 ⟨pos, rad⟩ ∧ S.getD 1 [] = Cfg.sim1 ⟨pos, rad⟩ := by
  obtain ⟨t, ht⟩ := tailOpt_some ⟨pos, rad⟩ mk ((Cfg.N ⟨pos, rad⟩) + 1) 2 ∅ []
    (Cfg.sim1 ⟨pos, rad⟩)
    (by
      intro s hs h3
      have := mem_sim1_length ⟨pos, rad⟩ s hs
      omega)
  refine ⟨[Cfg.sim0 ⟨pos, rad⟩, Cfg.sim1 ⟨pos, rad⟩] ++ t, ?_, rfl, rfl⟩
  rw [cechOpt, ht]

/-- Witness for the amended C5 at the counterexample input (lengths 2 and 3,
one negative radius). -/
theorem claim_C5_witness :
    cfgC5.pos.length ≤ cfgC5.rad.length ∧
      ∃ S, cechOpt cfgC5 none = some S ∧
        S.getD 0 [] = cfgC5.sim0 ∧ S.getD 1 [] = cfgC5.sim1 :=
  ⟨by norm_num [cfgC5], claim_C5_amended [((0 : ℝ), (0 : ℝ)), ((3 : ℝ), (0 : ℝ))]
    [-1, 1, 7] none (by norm_num)⟩

/-! ## Claim C2: the optimized fallback is a restricted pair search -/

theorem firstHit_eq_none_iff {α : Type} (Q : α → Prop) (l : List α) :
    firstHit Q l = none ↔ ∀ a ∈ l, ¬ Q a := by
  induction l with
  | nil => simp [firstHit]
  | cons a l ih =>
      rw [firstHit]
      by_cases hQ : Q a
      · rw [if_pos hQ]
        constructor
        · intro h; cases h
        · intro h; exact absurd hQ (h a (List.mem_cons_self a l))
      · rw [if_neg hQ, ih]
        constructor
        · intro h b hb
          rcases List.mem_cons.1 hb with rfl | hb
          · exact hQ
          · exact h b hb
        · intro h b hb
          exact h b (List.mem_cons_of_mem a hb)

theorem firstHit_eq_some_mem {α : Type} (Q : α → Prop) (l : List α) (a : α)
    (h : firstHit Q l = some a) : a ∈ l ∧ Q a := by
  induction l with
  | nil => cases h
  | cons b l ih =>
      rw [firstHit] at h
      by_cases hQ : Q b
      · rw [if_pos hQ] at h
        cases h
        exact ⟨List.mem_cons_self _ _, hQ⟩
      · rw [if_neg hQ] at h
        obtain ⟨hm, hq⟩ := ih h
        exact ⟨List.mem_cons_of_mem b hm, hq⟩

theorem firstMap_eq_none_iff {α β : Type} (f : α → Option β) (l : List α) :
    firstMap f l = none ↔ ∀ a ∈ l, f a = none := by
  induction l with
  | nil => simp [firstMap]
  | cons a l ih =>
      rw [firstMap]
      rcases hfa : f a with _ | b
      · rw [ih]
        constructor
        · intro h b hb
          rcases List.mem_cons.1 hb with rfl | hb
          · exact hfa
          · exact h b hb
        · intro h b hb
          exact h b (List.mem_cons_of_mem a hb)
      · constructor
        · intro h; cases h
        · intro h
          exact absurd hfa (by rw [h a (List.mem_cons_self a l)]; intro hh; cases hh)

theorem firstMap_eq_some_ex {α β : Type} (f : α → Option β) (l : List α) (b : β)
    (h : firstMap f l = some b) : ∃ a ∈ l, f a = some b := by
  induction l with
  | nil => cases h
  | cons a l ih =>
      rw [firstMap] at h
      rcases hfa : f a with _ | b'
      · rw [hfa] at h
        obtain ⟨c, hc, hfc⟩ := ih h
        exact ⟨c, List.mem_cons_of_mem a hc, hfc⟩
      · rw [hfa] at h
        cases h
        exact ⟨a, List.mem_cons_self a l, hfa⟩

/-- The predicate tried by the optimized fallback for pair `(last, j)` at a
point `q`: `q` lies in every cell other than positions `last` and `j`. -/
def Cfg.okAt (cfg : Cfg) (cells : List ℕ) (j : ℕ) (q : Point) : Prop :=
  allP (fun kc : ℕ × ℕ => kc.1 = cells.length - 1 ∨ kc.1 = j ∨ cfg.inCell q kc.2)
    cells.enum = true

theorem fallbackOpt_eq_none_iff (cfg : Cfg) (cells : List ℕ) :
    cfg.fallbackOpt cells = none ↔
      ∀ j < cells.length - 1,
        ∀ q ∈ cfg.inter (cells.getD (cells.length - 1) 0) (cells.getD j 0),
          ¬ cfg.okAt cells j q := by
  rw [Cfg.fallbackOpt, firstMap_eq_none_iff]
  constructor
  · intro h j hj q hq
    have := h j (List.mem_range.2 hj)
    rw [firstHit_eq_none_iff] at this
    exact this q hq
  · intro h j hj
    rw [firstHit_eq_none_iff]
    intro q hq
    exact h j (List.mem_range.1 hj) q hq

theorem fallbackOpt_eq_some_ex (cfg : Cfg) (cells : List ℕ) (p : Point)
    (h : cfg.fallbackOpt cells = some p) :
    ∃ j < cells.length - 1,
      p ∈ cfg.inter (cells.getD (cells.length - 1) 0) (cells.getD j 0) ∧
        cfg.okAt cells j p := by
  rw [Cfg.fallbackOpt] at h
  obtain ⟨j, hj, hfh⟩ := firstMap_eq_some_ex _ _ _ h
  obtain ⟨hm, hq⟩ := firstHit_eq_some_mem _ _ _ hfh
  exact ⟨j, List.mem_range.1 hj, hm, hq⟩

/-- When the containment shortcut fails and the memoized prefix witness is
not in the new vertex's disc, `CechComplex.verify` reduces to the restricted
fallback search. -/
theorem verifyOpt_fallback_eq (cfg : Cfg) (memo : List (Finset ℕ × Point)) (cells : List ℕ)
    (w : Point)
    (h1 : cfg.containsAllB cells (cfg.findSmallest cells) = false)
    (h2 : 2 < cells.dropLast.length)
    (h3 : memoLookup cells.dropLast.toFinset memo = some w)
    (h4 : ¬ cfg.inCell w (cells.getD (cells.length - 1) 0)) :
    cfg.verifyOpt memo cells =
      (match cfg.fallbackOpt cells with
        | some p => some (true, p)
        | none => some (false, ((0 : ℝ), (0 : ℝ)))) := by
  rw [Cfg.verifyOpt, if_neg (by rw [h1]; intro hh; cases hh),
    if_neg (by omega : ¬ cells.dropLast.length = 2), if_pos h2, h3]
  show (if cfg.inCell w (cells.getD (cells.length - 1) 0) then some (true, w)
    else match cfg.fallbackOpt cells with
      | some p => some (true, p)
      | none => some (false, ((0 : ℝ), (0 : ℝ)))) = _
  rw [if_neg h4]

/-- C2, amended: when the containment shortcut fails and the memoized witness
of the prefix does not lie in the new vertex's disc, `CechComplex.verify`
decides the candidate by the restricted pair search only: it accepts exactly
when some pair `(last, j)` — the most recently added vertex paired with an
earlier one, not every pair — yields an intersection point lying inside every
cell other than positions `last` and `j`. -/
theorem claim_C2_amended (cfg : Cfg) (memo : List (Finset ℕ × Point)) (cells : List ℕ)
    (w : Point)
    (h1 : cfg.containsAllB cells (cfg.findSmallest cells) = false)
    (h2 : 2 < cells.dropLast.length)
    (h3 : memoLookup cells.dropLast.toFinset memo = some w)
    (h4 : ¬ cfg.inCell w (cells.getD (cells.length - 1) 0)) :
    ∃ b p, cfg.verifyOpt memo cells = some (b, p) ∧
      (b = true ↔ ∃ j < cells.length - 1,
        ∃ q ∈ cfg.inter (cells.getD (cells.length - 1) 0) (cells.getD j 0),
          cfg.okAt cells j q) := by
  have hver := verifyOpt_fallback_eq cfg memo cells w h1 h2 h3 h4
  rcases hfo : cfg.fallbackOpt cells with _ | p
  · refine ⟨false, ((0 : ℝ), (0 : ℝ)), by rw [hver, hfo], ?_⟩
    simp only [Bool.false_eq_true, false_iff]
    rintro ⟨j, hj, q, hq, hok⟩
    exact (fallbackOpt_eq_none_iff cfg cells).1 hfo j hj q hq hok
  · obtain ⟨j, hj, hq, hok⟩ := fallbackOpt_eq_some_ex cfg cells p hfo
    exact ⟨true, p, by rw [hver, hfo], by simp only [true_iff]; exact ⟨j, hj, p, hq, hok⟩⟩

/-- The C2 counterexample configuration: discs `0` and `1` (radius 5 at
`(0,0)` and `(8,0)`) intersect at `(4, ±3)`; disc `2` is a small disc around
`(4,3)`; disc `3` is a huge disc around `(4,3)` whose boundary crosses no
other circle. -/
def cfgC2 : Cfg :=
  ⟨[((0 : ℝ), (0 : ℝ)), ((8 : ℝ), (0 : ℝ)), ((4 : ℝ), (3 : ℝ)), ((4 : ℝ), (3 : ℝ))],
    [5, 5, 1, 100]⟩

/-- A memo table holding a (stale) witness for `{0, 1, 2}` lying far outside
disc `3`. -/
def memoC2 : List (Finset ℕ × Point) := [([0, 1, 2].toFinset, ((1000 : ℝ), 0))]

theorem cfgC2_dist02 : cfgC2.dist 0 2 = 5 := by
  show Real.sqrt (((0 : ℝ) - 4) ^ 2 + ((0 : ℝ) - 3) ^ 2) = 5
  rw [show ((0 : ℝ) - 4) ^ 2 + ((0 : ℝ) - 3) ^ 2 = 5 ^ 2 by norm_num]
  exact Real.sqrt_sq (by norm_num)

theorem cfgC2_smallest : cfgC2.findSmallest [0, 1, 2, 3] = 2 := by
  norm_num [Cfg.findSmallest, List.foldl, show cfgC2.R 0 = 5 from rfl,
    show cfgC2.R 1 = 5 from rfl, show cfgC2.R 2 = 1 from rfl, show cfgC2.R 3 = 100 from rfl]

theorem cfgC2_containsAll : cfgC2.containsAllB [0, 1, 2, 3] 2 = false := by
  have habs : |(5 : ℝ) - 1| = 4 := by
    rw [show (5 : ℝ) - 1 = 4 by norm_num]
    exact abs_of_nonneg (by norm_num)
  have hnot : ¬ ((0 : ℕ) = 2 ∨ cfgC2.isInside 0 2) := by
    rintro (h | h)
    · cases h
    · rw [Cfg.isInside, cfgC2_dist02] at h
      rw [show cfgC2.R 0 = 5 from rfl, show cfgC2.R 2 = 1 from rfl, habs] at h
      norm_num at h
  rw [Cfg.containsAllB, allP]
  exact if_neg hnot

theorem cfgC2_inter30 : cfgC2.inter 3 0 = [] := by
  show get_intersections 4 3 100 0 0 5 = []
  have habs : |(100 : ℝ) - 5| = 95 := by
    rw [show (100 : ℝ) - 5 = 95 by norm_num]
    exact abs_of_nonneg (by norm_num)
  have hd : Real.sqrt (((0 : ℝ) - 4) ^ 2 + ((0 : ℝ) - 3) ^ 2) = 5 := by
    rw [show ((0 : ℝ) - 4) ^ 2 + ((0 : ℝ) - 3) ^ 2 = 5 ^ 2 by norm_num]
    exact Real.sqrt_sq (by norm_num)
  rw [get_intersections, hd]
  rw [if_neg (by norm_num), if_pos (by rw [habs]; norm_num)]

theorem cfgC2_inter31 : cfgC2.inter 3 1 = [] := by
  show get_intersections 4 3 100 8 0 5 = []
  have habs : |(100 : ℝ) - 5| = 95 := by
    rw [show (100 : ℝ) - 5 = 95 by norm_num]
    exact abs_of_nonneg (by norm_num)
  have hd : Real.sqrt (((8 : ℝ) - 4) ^ 2 + ((0 : ℝ) - 3) ^ 2) = 5 := by
    rw [show ((8 : ℝ) - 4) ^ 2 + ((0 : ℝ) - 3) ^ 2 = 5 ^ 2 by norm_num]
    exact Real.sqrt_sq (by norm_num)
  rw [get_intersections, hd]
  rw [if_neg (by norm_num), if_pos (by rw [habs]; norm_num)]

theorem cfgC2_inter32 : cfgC2.inter 3 2 = [] := by
  show get_intersections 4 3 100 4 3 1 = []
  have habs : |(100 : ℝ) - 1| = 99 := by
    rw [show (100 : ℝ) - 1 = 99 by norm_num]
    exact abs_of_nonneg (by norm_num)
  have hd : Real.sqrt (((4 : ℝ) - 4) ^ 2 + ((3 : ℝ) - 3) ^ 2) = 0 := by
    rw [show ((4 : ℝ) - 4) ^ 2 + ((3 : ℝ) - 3) ^ 2 = (0 : ℝ) by norm_num]
    exact Real.sqrt_zero
  rw [get_intersections, hd]
  rw [if_neg (by norm_num), if_pos (by rw [habs]; norm_num)]

theorem cfgC2_inter01 : cfgC2.inter 0 1 = [((4 : ℝ), -3), ((4 : ℝ), 3)] := by
  show get_intersections 0 0 5 8 0 5 = _
  have hd : Real.sqrt (((8 : ℝ) - 0) ^ 2 + ((0 : ℝ) - 0) ^ 2) = 8 := by
    rw [show ((8 : ℝ) - 0) ^ 2 + ((0 : ℝ) - 0) ^ 2 = 8 ^ 2 by norm_num]
    exact Real.sqrt_sq (by norm_num)
  rw [get_intersections, hd]
  have habs : |(5 : ℝ) - 5| = 0 := by
    rw [show (5 : ℝ) - 5 = 0 by norm_num]
    exact abs_zero
  rw [if_neg (by norm_num), if_neg (by rw [habs]; norm_num),
    if_neg (by rintro ⟨h8, _⟩; norm_num at h8)]
  rw [interPoints]
  have ha : ((5 : ℝ) ^ 2 - 5 ^ 2 + 8 ^ 2) / (2 * 8) = 4 := by norm_num
  rw [ha]
  have hh : Real.sqrt ((5 : ℝ) ^ 2 - 4 ^ 2) = 3 := by
    rw [show (5 : ℝ) ^ 2 - 4 ^ 2 = 3 ^ 2 by norm_num]
    exact Real.sqrt_sq (by norm_num)
  rw [hh]
  norm_num

theorem cfgC2_fallback : cfgC2.fallbackOpt [0, 1, 2, 3] = none := by
  rw [fallbackOpt_eq_none_iff]
  intro j hj q hq
  rw [show ([0, 1, 2, 3] : List ℕ).length - 1 = 3 from rfl] at hj hq
  rw [show ([0, 1, 2, 3] : List ℕ).getD 3 0 = 3 from rfl] at hq
  interval_cases j
  · rw [show ([0, 1, 2, 3] : List ℕ).getD 0 0 = 0 from rfl, cfgC2_inter30] at hq
    cases hq
  · rw [show ([0, 1, 2, 3] : List ℕ).getD 1 0 = 1 from rfl, cfgC2_inter31] at hq
    cases hq
  · rw [show ([0, 1, 2, 3] : List ℕ).getD 2 0 = 2 from rfl, cfgC2_inter32] at hq
    cases hq

theorem cfgC2_notInCell : ¬ cfgC2.inCell ((1000 : ℝ), 0) 3 := by
  show ¬ (((4 : ℝ) - 1000) ^ 2 + ((3 : ℝ) - 0) ^ 2 ≤ 100 ^ 2)
  norm_num

theorem cfgC2_verify : cfgC2.verifyOpt memoC2 [0, 1, 2, 3] = some (false, ((0 : ℝ), 0)) := by
  rw [verifyOpt_fallback_eq cfgC2 memoC2 [0, 1, 2, 3] ((1000 : ℝ), 0)
    (by rw [cfgC2_smallest]; exact cfgC2_containsAll)
    (by norm_num)
    rfl
    (by
      rw [show ([0, 1, 2, 3] : List ℕ).getD (([0, 1, 2, 3] : List ℕ).length - 1) 0 = 3
        from rfl]
      exact cfgC2_notInCell)]
  rw [cfgC2_fallback]

/-- C2, counterexample: a candidate `[0, 1, 2, 3]` on which neither shortcut
decides (`containsAllB` is false and the memoized prefix witness lies outside
disc 3), the pair `(0, 1)` — a pair not involving the last vertex — yields the
point `(4, 3)` lying inside the discs of both other vertices, yet the
verifier returns `False`: it never computes `circleIntersections(0, 1)` in
the fallback, contradicting the claimed every-pair search. -/
theorem claim_C2_counterexample :
    cfgC2.containsAllB [0, 1, 2, 3] (cfgC2.findSmallest [0, 1, 2, 3]) = false ∧
    memoLookup (([0, 1, 2, 3] : List ℕ).dropLast).toFinset memoC2 =
      some ((1000 : ℝ), 0) ∧
    ¬ cfgC2.inCell ((1000 : ℝ), 0) 3 ∧
    ((4 : ℝ), (3 : ℝ)) ∈ cfgC2.inter 0 1 ∧
    cfgC2.inCell ((4 : ℝ), 3) 2 ∧ cfgC2.inCell ((4 : ℝ), 3) 3 ∧
    cfgC2.verifyOpt memoC2 [0, 1, 2, 3] = some (false, ((0 : ℝ), 0)) := by
  refine ⟨by rw [cfgC2_smallest]; exact cfgC2_containsAll, rfl, cfgC2_notInCell, ?_, ?_, ?_,
    cfgC2_verify⟩
  · rw [cfgC2_inter01]
    exact List.mem_cons_of_mem _ (List.mem_singleton.2 rfl)
  · show ((4 : ℝ) - 4) ^ 2 + ((3 : ℝ) - 3) ^ 2 ≤ 1 ^ 2
    norm_num
  · show ((4 : ℝ) - 4) ^ 2 + ((3 : ℝ) - 3) ^ 2 ≤ 100 ^ 2
    norm_num

/-- Witness for the amended C2 at the counterexample input: the hypotheses
hold there and the restricted search indeed decides (negatively, as no pair
involving the last vertex yields any intersection point at all). -/
theorem claim_C2_witness :
    ∃ b p, cfgC2.verifyOpt memoC2 [0, 1, 2, 3] = some (b, p) ∧
      (b = true ↔ ∃ j < ([0, 1, 2, 3] : List ℕ).length - 1,
        ∃ q ∈ cfgC2.inter (([0, 1, 2, 3] : List ℕ).getD
            (([0, 1, 2, 3] : List ℕ).length - 1) 0) (([0, 1, 2, 3] : List ℕ).getD j 0),
          cfgC2.okAt [0, 1, 2, 3] j q) :=
  claim_C2_amended cfgC2 memoC2 [0, 1, 2, 3] ((1000 : ℝ), 0)
    (by rw [cfgC2_smallest]; exact cfgC2_containsAll)
    (by norm_num)
    rfl
    (by
      rw [show ([0, 1, 2, 3] : List ℕ).getD (([0, 1, 2, 3] : List ℕ).length - 1) 0 = 3
        from rfl]
      exact cfgC2_notInCell)

/-! ## Claim C8: permutation invariance

We characterise the level sets of the baseline constructor `cechLE`
set-theoretically and show they transform by `π` under a relabeling of the
balls.  First, membership lemmas for the list combinators. -/

theorem mem_filterP {α : Type} (Q : α → Prop) (l : List α) (a : α) :
    a ∈ filterP Q l ↔ a ∈ l ∧ Q a := by
  induction l with
  | nil => simp [filterP]
  | cons b l ih =>
      rw [filterP]
      by_cases hb : Q b
      · rw [if_pos hb]
        constructor
        · intro h
          rcases List.mem_cons.1 h with rfl | h
          · exact ⟨List.mem_cons_self _ _, hb⟩
          · obtain ⟨h1, h2⟩ := ih.1 h
            exact ⟨List.mem_cons_of_mem _ h1, h2⟩
        · rintro ⟨h1, h2⟩
          rcases List.mem_cons.1 h1 with rfl | h1
          · exact List.mem_cons_self _ _
          · exact List.mem_cons_of_mem _ (ih.2 ⟨h1, h2⟩)
      · rw [if_neg hb]
        constructor
        · intro h
          obtain ⟨h1, h2⟩ := ih.1 h
          exact ⟨List.mem_cons_of_mem _ h1, h2⟩
        · rintro ⟨h1, h2⟩
          rcases List.mem_cons.1 h1 with rfl | h1
          · exact absurd h2 hb
          · exact ih.2 ⟨h1, h2⟩

theorem filterP_sublist {α : Type} (Q : α → Prop) (l : List α) :
    (filterP Q l).Sublist l := by
  induction l with
  | nil => exact List.Sublist.refl []
  | cons b l ih =>
      rw [filterP]
      by_cases hb : Q b
      · rw [if_pos hb]; exact ih.cons₂ b
      · rw [if_neg hb]; exact ih.cons b

theorem nodup_filterP {α : Type} (Q : α → Prop) (l : List α) (h : l.Nodup) :
    (filterP Q l).Nodup :=
  (filterP_sublist Q l).nodup h

theorem allP_eq_true_iff {α : Type} (Q : α → Prop) (l : List α) :
    allP Q l = true ↔ ∀ a ∈ l, Q a := by
  induction l with
  | nil => simp [allP]
  | cons b l ih =>
      rw [allP]
      by_cases hb : Q b
      · rw [if_pos hb, ih]
        constructor
        · intro h a ha
          rcases List.mem_cons.1 ha with rfl | ha
          · exact hb
          · exact h a ha
        · intro h a ha
          exact h a (List.mem_cons_of_mem _ ha)
      · rw [if_neg hb]
        constructor
        · intro h; cases h
        · intro h; exact absurd (h b (List.mem_cons_self _ _)) hb

theorem anyP_eq_true_iff {α : Type} (Q : α → Prop) (l : List α) :
    anyP Q l = true ↔ ∃ a ∈ l, Q a := by
  induction l with
  | nil => simp [anyP]
  | cons b l ih =>
      rw [anyP]
      by_cases hb : Q b
      · rw [if_pos hb]
        simp only [true_iff]
        exact ⟨b, List.mem_cons_self _ _, hb⟩
      · rw [if_neg hb, ih]
        constructor
        · rintro ⟨a, ha, hQ⟩
          exact ⟨a, List.mem_cons_of_mem _ ha, hQ⟩
        · rintro ⟨a, ha, hQ⟩
          rcases List.mem_cons.1 ha with rfl | ha
          · exact absurd hQ hb
          · exact ⟨a, ha, hQ⟩

theorem mem_pairsList_both {α : Type} (l : List α) (x y : α)
    (h : (x, y) ∈ pairsList l) : x ∈ l ∧ y ∈ l := by
  induction l with
  | nil => cases h
  | cons a t ih =>
      rw [pairsList] at h
      rcases List.mem_append.1 h with h | h
      · obtain ⟨b, hb, hba⟩ := List.mem_map.1 h
        obtain ⟨h1, h2⟩ := Prod.mk.injEq .. ▸ hba
        rw [← h1, ← h2]
        exact ⟨List.mem_cons_self _ _, List.mem_cons_of_mem _ hb⟩
      · obtain ⟨h1, h2⟩ := ih h
        exact ⟨List.mem_cons_of_mem _ h1, List.mem_cons_of_mem _ h2⟩

theorem mem_pairsList_ne {α : Type} (l : List α) (hnd : l.Nodup) (x y : α)
    (h : (x, y) ∈ pairsList l) : x ≠ y := by
  induction l with
  | nil => cases h
  | cons a t ih =>
      rw [pairsList] at h
      rw [List.nodup_cons] at hnd
      rcases List.mem_append.1 h with h | h
      · obtain ⟨b, hb, hba⟩ := List.mem_map.1 h
        obtain ⟨h1, h2⟩ := Prod.mk.injEq .. ▸ hba
        rw [← h1, ← h2]
        intro hab
        exact hnd.1 (hab ▸ hb)
      · exact ih hnd.2 h

theorem pairsList_of_mem {α : Type} (l : List α) (x y : α)
    (hx : x ∈ l) (hy : y ∈ l) (hne : x ≠ y) :
    (x, y) ∈ pairsList l ∨ (y, x) ∈ pairsList l := by
  induction l with
  | nil => cases hx
  | cons a t ih =>
      rw [pairsList]
      rcases List.mem_cons.1 hx with rfl | hx2
      · have hyt : y ∈ t := by
          rcases List.mem_cons.1 hy with rfl | hyt
          · exact absurd rfl hne
          · exact hyt
        left
        exact List.mem_append.2 (Or.inl (List.mem_map.2 ⟨y, hyt, rfl⟩))
      · rcases List.mem_cons.1 hy with rfl | hy2
        · right
          exact List.mem_append.2 (Or.inl (List.mem_map.2 ⟨x, hx2, rfl⟩))
        · rcases ih hx2 hy2 with h | h
          · exact Or.inl (List.mem_append.2 (Or.inr h))
          · exact Or.inr (List.mem_append.2 (Or.inr h))

theorem mem_combos_iff {α : Type} :
    ∀ (k : ℕ) (l c : List α), c ∈ combos k l ↔ c.Sublist l ∧ c.length = k := by
  intro k
  induction k with
  | zero =>
      intro l c
      rw [combos]
      constructor
      · intro h
        rw [List.mem_singleton.1 h]
        exact ⟨List.nil_sublist l, rfl⟩
      · rintro ⟨hs, hl⟩
        rw [List.length_eq_zero.1 hl]
        exact List.mem_singleton.2 rfl
  | succ k ihk =>
      intro l
      induction l with
      | nil =>
          intro c
          rw [combos]
          constructor
          · intro h; cases h
          · rintro ⟨hs, hl⟩
            rw [List.sublist_nil.1 hs] at hl
            cases hl
      | cons a t iht =>
          intro c
          rw [combos]
          constructor
          · intro h
            rcases List.mem_append.1 h with h | h
            · obtain ⟨c', hc', hcc⟩ := List.mem_map.1 h
              obtain ⟨hs, hl⟩ := (ihk t c').1 hc'
              rw [← hcc]
              exact ⟨hs.cons₂ a, by rw [List.length_cons, hl]⟩
            · obtain ⟨hs, hl⟩ := (iht c).1 h
              exact ⟨hs.cons a, hl⟩
          · rintro ⟨hs, hl⟩
            rcases c with _ | ⟨b, c'⟩
            · cases hl
            · rcases List.sublist_cons_iff.1 hs with h | ⟨r, hr, hrs⟩
              · exact List.mem_append.2 (Or.inr ((iht (b :: c')).2 ⟨h, hl⟩))
              · have hb : b = a := (List.cons.injEq .. ▸ hr).1
                have hc' : c' = r := (List.cons.injEq .. ▸ hr).2
                refine List.mem_append.2 (Or.inl (List.mem_map.2 ⟨c', ?_, by rw [hb]⟩))
                refine (ihk t c').2 ⟨hc' ▸ hrs, ?_⟩
                rw [List.length_cons] at hl
                omega

/-! ### Facts about the neighbor graph and the shared verifier pieces -/

theorem Cfg.intersects_comm (cfg : Cfg) (i j : ℕ) :
    cfg.intersects i j ↔ cfg.intersects j i := by
  unfold Cfg.intersects
  rw [cfg.dist_comm i j, add_comm]

theorem mem_neighbor (cfg : Cfg) (i j : ℕ) :
    j ∈ cfg.neighbor i ↔ j < cfg.N ∧ j ≠ i ∧ cfg.intersects i j := by
  rw [Cfg.neighbor, mem_filterP, List.mem_range]
  constructor
  · rintro ⟨hr, (⟨hij, hint⟩ | ⟨hji, hint⟩)⟩
    · exact ⟨hr, by omega, hint⟩
    · exact ⟨hr, by omega, (cfg.intersects_comm j i).1 hint⟩
  · rintro ⟨hr, hne, hint⟩
    refine ⟨hr, ?_⟩
    rcases Nat.lt_or_ge i j with h | h
    · exact Or.inl ⟨h, hint⟩
    · exact Or.inr ⟨by omega, (cfg.intersects_comm i j).1 hint⟩

theorem neighbor_nodup (cfg : Cfg) (i : ℕ) : (cfg.neighbor i).Nodup :=
  nodup_filterP _ _ (List.nodup_range _)

theorem dist_zero_P_eq (cfg : Cfg) (i j : ℕ) (h : cfg.dist i j = 0) : cfg.P i = cfg.P j := by
  unfold Cfg.dist at h
  rw [Real.sqrt_eq_zero'] at h
  have hx := sq_nonneg ((cfg.P i).1 - (cfg.P j).1)
  have hy := sq_nonneg ((cfg.P i).2 - (cfg.P j).2)
  have e1 : (cfg.P i).1 = (cfg.P j).1 := by nlinarith [hx, hy, h]
  have e2 : (cfg.P i).2 = (cfg.P j).2 := by nlinarith [hx, hy, h]
  exact Prod.ext_iff.2 ⟨e1, e2⟩

theorem foldSmallest_spec (cfg : Cfg) :
    ∀ (t : List ℕ) (b : ℕ),
      (t.foldl (fun m c => if cfg.R c < cfg.R m then c else m) b = b ∨
        t.foldl (fun m c => if cfg.R c < cfg.R m then c else m) b ∈ t) ∧
      cfg.R (t.foldl (fun m c => if cfg.R c < cfg.R m then c else m) b) ≤ cfg.R b ∧
      ∀ c ∈ t, cfg.R (t.foldl (fun m c => if cfg.R c < cfg.R m then c else m) b) ≤ cfg.R c := by
  intro t
  induction t with
  | nil =>
      intro b
      exact ⟨Or.inl rfl, le_refl _, by simp⟩
  | cons c t ih =>
      intro b
      rw [List.foldl_cons]
      obtain ⟨hmem, hle, hall⟩ := ih (if cfg.R c < cfg.R b then c else b)
      have hb'le : cfg.R (if cfg.R c < cfg.R b then c else b) ≤ cfg.R b ∧
          cfg.R (if cfg.R c < cfg.R b then c else b) ≤ cfg.R c := by
        by_cases h : cfg.R c < cfg.R b
        · rw [if_pos h]; exact ⟨h.le, le_refl _⟩
        · rw [if_neg h]; exact ⟨le_refl _, not_lt.1 h⟩
      have hb'mem : (if cfg.R c < cfg.R b then c else b) = b ∨
          (if cfg.R c < cfg.R b then c else b) = c := by
        by_cases h : cfg.R c < cfg.R b
        · rw [if_pos h]; exact Or.inr rfl
        · rw [if_neg h]; exact Or.inl rfl
      refine ⟨?_, ?_, ?_⟩
      · rcases hmem with h | h
        · rcases hb'mem with h2 | h2
          · exact Or.inl (h.trans h2)
          · rw [h, h2]
            exact Or.inr (List.mem_cons_self _ _)
        · exact Or.inr (List.mem_cons_of_mem _ h)
      · exact hle.trans hb'le.1
      · intro e he
        rcases List.mem_cons.1 he with rfl | he
        · exact hle.trans hb'le.2
        · exact hall e he

theorem findSmallest_spec (cfg : Cfg) (a : ℕ) (t : List ℕ) :
    cfg.findSmallest (a :: t) ∈ a :: t ∧
      ∀ c ∈ a :: t, cfg.R (cfg.findSmallest (a :: t)) ≤ cfg.R c := by
  have heq : cfg.findSmallest (a :: t) =
      t.foldl (fun m c => if cfg.R c < cfg.R m then c else m) a := by
    rw [Cfg.findSmallest, show ((a :: t).headD 0) = a from rfl, List.foldl_cons,
      if_neg (lt_irrefl _)]
  obtain ⟨hmem, hle, hall⟩ := foldSmallest_spec cfg t a
  constructor
  · rw [heq]
    rcases hmem with h | h
    · rw [h]; exact List.mem_cons_self _ _
    · exact List.mem_cons_of_mem _ h
  · intro c hc
    rw [heq]
    rcases List.mem_cons.1 hc with rfl | hc
    · exact hle
    · exact hall c hc

theorem containsAllB_iff (cfg : Cfg) (cells : List ℕ) (m : ℕ) :
    cfg.containsAllB cells m = true ↔ ∀ c ∈ cells, c = m ∨ cfg.isInside c m := by
  rw [Cfg.containsAllB, allP_eq_true_iff]

/-! ### The circle-intersection primitive is order-symmetric (as a point set) -/

theorem interPoints_swap (x0 y0 r0 x1 y1 r1 d : ℝ) (hd : d ≠ 0) :
    interPoints x1 y1 r1 x0 y0 r0 d = (interPoints x0 y0 r0 x1 y1 r1 d).reverse := by
  simp only [interPoints]
  have hh : Real.sqrt (r1 ^ 2 - ((r1 ^ 2 - r0 ^ 2 + d ^ 2) / (2 * d)) ^ 2) =
      Real.sqrt (r0 ^ 2 - ((r0 ^ 2 - r1 ^ 2 + d ^ 2) / (2 * d)) ^ 2) := by
    congr 1
    field_simp
    ring
  rw [hh]
  have hrev : ∀ (p q : Point), ([p, q] : List Point).reverse = [q, p] := fun p q => rfl
  rw [hrev]
  simp only [List.cons.injEq, Prod.mk.injEq, and_true]
  refine ⟨⟨?_, ?_⟩, ?_, ?_⟩ <;> (field_simp; ring)

theorem get_intersections_swap (x0 y0 r0 x1 y1 r1 : ℝ) :
    get_intersections x1 y1 r1 x0 y0 r0 = (get_intersections x0 y0 r0 x1 y1 r1).reverse := by
  rw [get_intersections, get_intersections]
  have hde : Real.sqrt ((x0 - x1) ^ 2 + (y0 - y1) ^ 2) =
      Real.sqrt ((x1 - x0) ^ 2 + (y1 - y0) ^ 2) := by
    congr 1; ring
  rw [hde]
  by_cases h1 : Real.sqrt ((x1 - x0) ^ 2 + (y1 - y0) ^ 2) > r0 + r1
  · rw [if_pos (by linarith : Real.sqrt ((x1 - x0) ^ 2 + (y1 - y0) ^ 2) > r1 + r0), if_pos h1]
    rfl
  · rw [if_neg (by linarith : ¬ Real.sqrt ((x1 - x0) ^ 2 + (y1 - y0) ^ 2) > r1 + r0),
      if_neg h1]
    by_cases h2 : Real.sqrt ((x1 - x0) ^ 2 + (y1 - y0) ^ 2) < |r0 - r1|
    · rw [if_pos (by rw [abs_sub_comm]; exact h2 :
        Real.sqrt ((x1 - x0) ^ 2 + (y1 - y0) ^ 2) < |r1 - r0|), if_pos h2]
      rfl
    · rw [if_neg (by rw [abs_sub_comm]; exact h2 :
        ¬ Real.sqrt ((x1 - x0) ^ 2 + (y1 - y0) ^ 2) < |r1 - r0|), if_neg h2]
      by_cases h3 : Real.sqrt ((x1 - x0) ^ 2 + (y1 - y0) ^ 2) = 0 ∧ r0 = r1
      · rw [if_pos (⟨h3.1, h3.2.symm⟩ :
          Real.sqrt ((x1 - x0) ^ 2 + (y1 - y0) ^ 2) = 0 ∧ r1 = r0), if_pos h3]
        rfl
      · rw [if_neg (fun hh => h3 ⟨hh.1, hh.2.symm⟩), if_neg h3]
        refine interPoints_swap x0 y0 r0 x1 y1 r1 _ ?_
        intro h0
        apply h3
        refine ⟨h0, ?_⟩
        have habs : |r0 - r1| ≤ 0 := by rw [← h0]; exact not_lt.1 h2
        have h00 : |r0 - r1| = 0 := le_antisymm habs (abs_nonneg _)
        have := abs_eq_zero.1 h00
        linarith [this]

theorem Cfg.inter_swap (cfg : Cfg) (i j : ℕ) : cfg.inter j i = (cfg.inter i j).reverse :=
  get_intersections_swap (cfg.P i).1 (cfg.P i).2 (cfg.R i) (cfg.P j).1 (cfg.P j).2 (cfg.R j)

/-! ### Set-level characterisation of `CechComplexLE.verify` -/

/-- The containment shortcut at set level: some minimum-radius vertex whose
disc-containment test succeeds against every other vertex. -/
def Cfg.shortcutP (cfg : Cfg) (T : Finset ℕ) : Prop :=
  ∃ m ∈ T, (∀ c ∈ T, cfg.R m ≤ cfg.R c) ∧ ∀ c ∈ T, c = m ∨ cfg.isInside c m

/-- The exhaustive pair search at set level: some unordered pair has a
circle-intersection point lying in every other vertex's disc. -/
def Cfg.pairP (cfg : Cfg) (T : Finset ℕ) : Prop :=
  ∃ i ∈ T, ∃ j ∈ T, i ≠ j ∧ ∃ p ∈ cfg.inter i j, ∀ c ∈ T, c = i ∨ c = j ∨ cfg.inCell p c

/-- What `CechComplexLE.verify` decides, as a property of the canonical
index-set. -/
def Cfg.verifySetP (cfg : Cfg) (T : Finset ℕ) : Prop :=
  cfg.shortcutP T ∨ cfg.pairP T

/-- The containment shortcut does not depend on which minimum-radius vertex
the fold picks: if it succeeds for some minimum, it succeeds for any. -/
theorem shortcut_via_min (cfg : Cfg) (T : Finset ℕ) (m0 : ℕ) (hm0 : m0 ∈ T)
    (hmin : ∀ c ∈ T, cfg.R m0 ≤ cfg.R c) (h : cfg.shortcutP T) :
    ∀ c ∈ T, c = m0 ∨ cfg.isInside c m0 := by
  obtain ⟨m, hmT, hmmin, hcont⟩ := h
  have hReq : cfg.R m0 = cfg.R m := le_antisymm (hmin m hmT) (hmmin m0 hm0)
  rcases hcont m0 hm0 with heq | hin
  · rw [heq]
    exact hcont
  · have hd0 : cfg.dist m0 m = 0 := by
      have habs : |cfg.R m0 - cfg.R m| = 0 := by rw [hReq]; simp
      rw [Cfg.isInside, habs] at hin
      exact le_antisymm hin (Real.sqrt_nonneg _)
    have hP : cfg.P m0 = cfg.P m := dist_zero_P_eq cfg m0 m hd0
    intro c hc
    rcases hcont c hc with rfl | hin2
    · right
      rw [Cfg.isInside, cfg.dist_comm c m0, hd0]
      exact abs_nonneg _
    · right
      rw [Cfg.isInside] at hin2 ⊢
      have hdd : cfg.dist c m0 = cfg.dist c m := by
        rw [dist_eq_distP, dist_eq_distP, hP]
      rw [hdd, hReq]
      exact hin2

/-- `CechComplexLE.verify` computes exactly the set-level property
`verifySetP` (for a duplicate-free candidate list, which the generator
produces). -/
theorem verifyLE_iff (cfg : Cfg) (a : ℕ) (t : List ℕ) (hnd : (a :: t).Nodup) :
    cfg.verifyLE (a :: t) = true ↔ cfg.verifySetP (a :: t).toFinset := by
  obtain ⟨hsmem, hsmin⟩ := findSmallest_spec cfg a t
  rw [Cfg.verifyLE]
  by_cases hsc : cfg.containsAllB (a :: t) (cfg.findSmallest (a :: t)) = true
  · rw [if_pos hsc]
    simp only [true_iff]
    left
    refine ⟨cfg.findSmallest (a :: t), List.mem_toFinset.2 hsmem,
      fun c hc => hsmin c (List.mem_toFinset.1 hc), fun c hc =>
      (containsAllB_iff cfg (a :: t) _).1 hsc c (List.mem_toFinset.1 hc)⟩
  · rw [if_neg hsc]
    rw [Cfg.fallbackLE, anyP_eq_true_iff]
    constructor
    · rintro ⟨⟨i1, i2⟩, hij, hinner⟩
      rw [anyP_eq_true_iff] at hinner
      obtain ⟨p, hp, hall⟩ := hinner
      rw [allP_eq_true_iff] at hall
      right
      obtain ⟨h1, h2⟩ := mem_pairsList_both _ _ _ hij
      exact ⟨i1, List.mem_toFinset.2 h1, i2, List.mem_toFinset.2 h2,
        mem_pairsList_ne _ hnd _ _ hij,
        p, hp, fun c hc => hall c (List.mem_toFinset.1 hc)⟩
    · intro hv
      rcases hv with hshort | hpair
      · exfalso
        apply hsc
        rw [containsAllB_iff]
        have hall := shortcut_via_min cfg (a :: t).toFinset (cfg.findSmallest (a :: t))
          (List.mem_toFinset.2 hsmem) (fun c hc => hsmin c (List.mem_toFinset.1 hc)) hshort
        intro c hc
        exact hall c (List.mem_toFinset.2 hc)
      · obtain ⟨i, hi, j, hj, hne, p, hp, hall⟩ := hpair
        rcases pairsList_of_mem (a :: t) i j (List.mem_toFinset.1 hi)
            (List.mem_toFinset.1 hj) hne with hij | hji
        · refine ⟨(i, j), hij, ?_⟩
          rw [anyP_eq_true_iff]
          refine ⟨p, hp, ?_⟩
          rw [allP_eq_true_iff]
          intro c hc
          exact hall c (List.mem_toFinset.2 hc)
        · refine ⟨(j, i), hji, ?_⟩
          rw [anyP_eq_true_iff]
          refine ⟨p, ?_, ?_⟩
          · rw [show cfg.inter j i = (cfg.inter i j).reverse from cfg.inter_swap i j]
            exact List.mem_reverse.2 hp
          · rw [allP_eq_true_iff]
            intro c hc
            rcases hall c (List.mem_toFinset.2 hc) with h | h | h
            · exact Or.inr (Or.inl h)
            · exact Or.inl h
            · exact Or.inr (Or.inr h)

/-! ### Set-level characterisation of the baseline candidate generator and
level sets -/

/-- A canonical index-set is a level-`k` candidate of `CechComplexLE` iff it
has `k + 1` vertices and some vertex is adjacent to all the others (the
"star" condition realised by `getCandidates`). -/
def Cfg.candP (cfg : Cfg) (k : ℕ) (T : Finset ℕ) : Prop :=
  T.card = k + 1 ∧ ∃ i ∈ T, i < cfg.N ∧ ∀ j ∈ T, j ≠ i → j < cfg.N ∧ cfg.intersects i j

theorem mem_candsLE (cfg : Cfg) (k : ℕ) (cand : List ℕ) :
    cand ∈ cfg.candsLE k ↔
      ∃ i < cfg.N, ∃ c, c.Sublist (cfg.neighbor i) ∧ c.length = k ∧ cand = i :: c := by
  rw [Cfg.candsLE, List.mem_flatMap]
  constructor
  · rintro ⟨i, hi, hc⟩
    obtain ⟨c, hcc, hcand⟩ := List.mem_map.1 hc
    obtain ⟨hs, hl⟩ := (mem_combos_iff k (cfg.neighbor i) c).1 hcc
    exact ⟨i, List.mem_range.1 hi, c, hs, hl, hcand.symm⟩
  · rintro ⟨i, hi, c, hs, hl, rfl⟩
    exact ⟨i, List.mem_range.2 hi,
      List.mem_map.2 ⟨c, (mem_combos_iff k (cfg.neighbor i) c).2 ⟨hs, hl⟩, rfl⟩⟩

theorem candLE_nodup (cfg : Cfg) (i : ℕ) (c : List ℕ)
    (hs : c.Sublist (cfg.neighbor i)) : (i :: c).Nodup := by
  rw [List.nodup_cons]
  constructor
  · intro hic
    have h := (mem_neighbor cfg i i).1 (hs.subset hic)
    exact h.2.1 rfl
  · exact hs.nodup (neighbor_nodup cfg i)

theorem candsLE_set (cfg : Cfg) (k : ℕ) (T : Finset ℕ) :
    (∃ cand ∈ cfg.candsLE k, cand.toFinset = T) ↔ cfg.candP k T := by
  constructor
  · rintro ⟨cand, hc, rfl⟩
    obtain ⟨i, hiN, c, hs, hl, rfl⟩ := (mem_candsLE cfg k cand).1 hc
    have hnd := candLE_nodup cfg i c hs
    rw [List.nodup_cons] at hnd
    constructor
    · rw [List.toFinset_cons, Finset.card_insert_of_not_mem (by
        rw [List.mem_toFinset]; exact hnd.1)]
      rw [List.toFinset_card_of_nodup hnd.2, hl]
    · refine ⟨i, by rw [List.toFinset_cons]; exact Finset.mem_insert_self i _, hiN, ?_⟩
      intro j hj hji
      rw [List.toFinset_cons, Finset.mem_insert] at hj
      rcases hj with rfl | hj
      · exact absurd rfl hji
      · have h := (mem_neighbor cfg i j).1 (hs.subset (List.mem_toFinset.1 hj))
        exact ⟨h.1, h.2.2⟩
  · rintro ⟨hcard, i, hiT, hiN, hadj⟩
    have hsub := filterP_sublist (fun j => j ∈ T) (cfg.neighbor i)
    have hcnd := nodup_filterP (fun j => j ∈ T) (cfg.neighbor i) (neighbor_nodup cfg i)
    have hcfin : (filterP (fun j => j ∈ T) (cfg.neighbor i)).toFinset = T.erase i := by
      ext j
      rw [List.mem_toFinset, mem_filterP, Finset.mem_erase, mem_neighbor]
      constructor
      · rintro ⟨⟨_, hji, _⟩, hjT⟩
        exact ⟨hji, hjT⟩
      · rintro ⟨hji, hjT⟩
        obtain ⟨hjN, hint⟩ := hadj j hjT hji
        exact ⟨⟨hjN, hji, hint⟩, hjT⟩
    have hlen : (filterP (fun j => j ∈ T) (cfg.neighbor i)).length = k := by
      have h1 := List.toFinset_card_of_nodup hcnd
      rw [hcfin, Finset.card_erase_of_mem hiT, hcard] at h1
      omega
    refine ⟨i :: filterP (fun j => j ∈ T) (cfg.neighbor i),
      (mem_candsLE cfg k _).2 ⟨i, hiN, _, hsub, hlen, rfl⟩, ?_⟩
    rw [List.toFinset_cons, hcfin]
    exact Finset.insert_erase hiT

/-- The canonical index-sets of a `CechComplexLE` level are exactly the
star-candidates that pass set-level verification. -/
theorem SkLE_set (cfg : Cfg) (k : ℕ) (T : Finset ℕ) :
    (∃ cells ∈ filterP (fun cand => cfg.verifyLE cand = true) (cfg.candsLE k),
      cells.toFinset = T) ↔ cfg.candP k T ∧ cfg.verifySetP T := by
  constructor
  · rintro ⟨cells, hc, rfl⟩
    rw [mem_filterP] at hc
    obtain ⟨hcand, hver⟩ := hc
    refine ⟨(candsLE_set cfg k _).1 ⟨cells, hcand, rfl⟩, ?_⟩
    obtain ⟨i, hiN, c, hs, hl, rfl⟩ := (mem_candsLE cfg k cells).1 hcand
    exact (verifyLE_iff cfg i c (candLE_nodup cfg i c hs)).1 hver
  · rintro ⟨hcand, hver⟩
    obtain ⟨cells, hc, hT⟩ := (candsLE_set cfg k T).2 hcand
    refine ⟨cells, ?_, hT⟩
    rw [mem_filterP]
    refine ⟨hc, ?_⟩
    obtain ⟨i, hiN, c, hs, hl, rfl⟩ := (mem_candsLE cfg k cells).1 hc
    rw [verifyLE_iff cfg i c (candLE_nodup cfg i c hs), hT]
    exact hver

/-! ### The `π`-relabeled input and value transport -/

/-- The input relabeled by the permutation `π`: ball `π i` of the new input
is ball `i` of the old one. -/
def permCfg (cfg : Cfg) (π : Equiv.Perm ℕ) : Cfg :=
  ⟨(List.range cfg.N).map (fun j => cfg.pos.getD (π.symm j) ((0 : ℝ), (0 : ℝ))),
    (List.range cfg.N).map (fun j => cfg.rad.getD (π.symm j) 0)⟩

theorem permCfg_N (cfg : Cfg) (π : Equiv.Perm ℕ) : (permCfg cfg π).N = cfg.N := by
  show ((List.range cfg.N).map _).length = _
  rw [List.length_map, List.length_range]

theorem permCfg_P (cfg : Cfg) (π : Equiv.Perm ℕ) (j : ℕ) (hj : j < cfg.N) :
    (permCfg cfg π).P j = cfg.P (π.symm j) := by
  show ((List.range cfg.N).map _).getD j _ = _
  rw [List.getD_eq_getElem?_getD, List.getElem?_map, List.getElem?_range hj]
  rfl

theorem permCfg_R (cfg : Cfg) (π : Equiv.Perm ℕ) (j : ℕ) (hj : j < cfg.N) :
    (permCfg cfg π).R j = cfg.R (π.symm j) := by
  show ((List.range cfg.N).map _).getD j _ = _
  rw [List.getD_eq_getElem?_getD, List.getElem?_map, List.getElem?_range hj]
  rfl

section Perm

variable (cfg : Cfg) (π : Equiv.Perm ℕ)

theorem perm_lt (hπ : ∀ i, cfg.N ≤ i → π i = i) (i : ℕ) (hi : i < cfg.N) : π i < cfg.N := by
  by_contra h
  push_neg at h
  have h1 := hπ (π i) h
  have h2 := π.injective h1
  omega

theorem perm_lt_rev (hπ : ∀ i, cfg.N ≤ i → π i = i) (i : ℕ) (hi : π i < cfg.N) :
    i < cfg.N := by
  by_contra h
  push_neg at h
  rw [hπ i h] at hi
  omega

theorem perm_symm_lt (hπ : ∀ i, cfg.N ≤ i → π i = i) (i : ℕ) (hi : i < cfg.N) :
    π.symm i < cfg.N := by
  by_contra h
  push_neg at h
  have h1 := hπ (π.symm i) h
  rw [Equiv.apply_symm_apply] at h1
  omega

theorem permCfg_P_apply (hπ : ∀ i, cfg.N ≤ i → π i = i) (i : ℕ) (hi : i < cfg.N) :
    (permCfg cfg π).P (π i) = cfg.P i := by
  rw [permCfg_P cfg π (π i) (perm_lt cfg π hπ i hi), Equiv.symm_apply_apply]

theorem permCfg_R_apply (hπ : ∀ i, cfg.N ≤ i → π i = i) (i : ℕ) (hi : i < cfg.N) :
    (permCfg cfg π).R (π i) = cfg.R i := by
  rw [permCfg_R cfg π (π i) (perm_lt cfg π hπ i hi), Equiv.symm_apply_apply]

theorem permCfg_dist (hπ : ∀ i, cfg.N ≤ i → π i = i) (i j : ℕ) (hi : i < cfg.N)
    (hj : j < cfg.N) : (permCfg cfg π).dist (π i) (π j) = cfg.dist i j := by
  unfold Cfg.dist
  rw [permCfg_P_apply cfg π hπ i hi, permCfg_P_apply cfg π hπ j hj]

theorem permCfg_intersects (hπ : ∀ i, cfg.N ≤ i → π i = i) (i j : ℕ) (hi : i < cfg.N)
    (hj : j < cfg.N) :
    ((permCfg cfg π).intersects (π i) (π j) ↔ cfg.intersects i j) := by
  unfold Cfg.intersects
  rw [permCfg_dist cfg π hπ i j hi hj, permCfg_R_apply cfg π hπ i hi,
    permCfg_R_apply cfg π hπ j hj]

theorem permCfg_isInside (hπ : ∀ i, cfg.N ≤ i → π i = i) (i j : ℕ) (hi : i < cfg.N)
    (hj : j < cfg.N) :
    ((permCfg cfg π).isInside (π i) (π j) ↔ cfg.isInside i j) := by
  unfold Cfg.isInside
  rw [permCfg_dist cfg π hπ i j hi hj, permCfg_R_apply cfg π hπ i hi,
    permCfg_R_apply cfg π hπ j hj]

theorem permCfg_inCell (hπ : ∀ i, cfg.N ≤ i → π i = i) (p : Point) (i : ℕ) (hi : i < cfg.N) :
    ((permCfg cfg π).inCell p (π i) ↔ cfg.inCell p i) := by
  unfold Cfg.inCell
  rw [permCfg_P_apply cfg π hπ i hi, permCfg_R_apply cfg π hπ i hi]

theorem permCfg_inter (hπ : ∀ i, cfg.N ≤ i → π i = i) (i j : ℕ) (hi : i < cfg.N)
    (hj : j < cfg.N) : (permCfg cfg π).inter (π i) (π j) = cfg.inter i j := by
  unfold Cfg.inter
  rw [permCfg_P_apply cfg π hπ i hi, permCfg_P_apply cfg π hπ j hj,
    permCfg_R_apply cfg π hπ i hi, permCfg_R_apply cfg π hπ j hj]

theorem candP_members_lt (k : ℕ) (T : Finset ℕ) (h : cfg.candP k T) :
    ∀ j ∈ T, j < cfg.N := by
  obtain ⟨_, i, hiT, hiN, hadj⟩ := h
  intro j hj
  by_cases hji : j = i
  · rw [hji]; exact hiN
  · exact (hadj j hj hji).1

theorem candP_image (hπ : ∀ i, cfg.N ≤ i → π i = i) (k : ℕ) (T : Finset ℕ) :
    cfg.candP k T ↔ (permCfg cfg π).candP k (T.image π) := by
  constructor
  · rintro ⟨hcard, i, hiT, hiN, hadj⟩
    refine ⟨by rw [Finset.card_image_of_injective T π.injective, hcard], π i,
      Finset.mem_image_of_mem π hiT, ?_, ?_⟩
    · rw [permCfg_N]; exact perm_lt cfg π hπ i hiN
    · intro j' hj' hne
      obtain ⟨j, hjT, rfl⟩ := Finset.mem_image.1 hj'
      have hji : j ≠ i := fun h => hne (congrArg π h)
      obtain ⟨hjN, hint⟩ := hadj j hjT hji
      refine ⟨by rw [permCfg_N]; exact perm_lt cfg π hπ j hjN, ?_⟩
      exact (permCfg_intersects cfg π hπ i j hiN hjN).2 hint
  · rintro ⟨hcard, i', hi'T, hi'N, hadj'⟩
    rw [Finset.card_image_of_injective T π.injective] at hcard
    obtain ⟨i, hiT, rfl⟩ := Finset.mem_image.1 hi'T
    rw [permCfg_N] at hi'N
    have hiN : i < cfg.N := perm_lt_rev cfg π hπ i hi'N
    refine ⟨hcard, i, hiT, hiN, ?_⟩
    intro j hjT hji
    have hne : π j ≠ π i := fun h => hji (π.injective h)
    obtain ⟨hj'N, hint'⟩ := hadj' (π j) (Finset.mem_image_of_mem π hjT) hne
    rw [permCfg_N] at hj'N
    have hjN : j < cfg.N := perm_lt_rev cfg π hπ j hj'N
    exact ⟨hjN, (permCfg_intersects cfg π hπ i j hiN hjN).1 hint'⟩

theorem shortcutP_image (hπ : ∀ i, cfg.N ≤ i → π i = i) (T : Finset ℕ)
    (hT : ∀ j ∈ T, j < cfg.N) :
    cfg.shortcutP T ↔ (permCfg cfg π).shortcutP (T.image π) := by
  constructor
  · rintro ⟨m, hm, hmin, hcont⟩
    refine ⟨π m, Finset.mem_image_of_mem π hm, ?_, ?_⟩
    · intro c' hc'
      obtain ⟨c, hc, rfl⟩ := Finset.mem_image.1 hc'
      rw [permCfg_R_apply cfg π hπ m (hT m hm), permCfg_R_apply cfg π hπ c (hT c hc)]
      exact hmin c hc
    · intro c' hc'
      obtain ⟨c, hc, rfl⟩ := Finset.mem_image.1 hc'
      rcases hcont c hc with rfl | hin
      · exact Or.inl rfl
      · exact Or.inr ((permCfg_isInside cfg π hπ c m (hT c hc) (hT m hm)).2 hin)
  · rintro ⟨m', hm', hmin', hcont'⟩
    obtain ⟨m, hm, rfl⟩ := Finset.mem_image.1 hm'
    refine ⟨m, hm, ?_, ?_⟩
    · intro c hc
      have := hmin' (π c) (Finset.mem_image_of_mem π hc)
      rw [permCfg_R_apply cfg π hπ m (hT m hm), permCfg_R_apply cfg π hπ c (hT c hc)] at this
      exact this
    · intro c hc
      rcases hcont' (π c) (Finset.mem_image_of_mem π hc) with heq | hin
      · exact Or.inl (π.injective heq)
      · exact Or.inr ((permCfg_isInside cfg π hπ c m (hT c hc) (hT m hm)).1 hin)

theorem pairP_image (hπ : ∀ i, cfg.N ≤ i → π i = i) (T : Finset ℕ)
    (hT : ∀ j ∈ T, j < cfg.N) :
    cfg.pairP T ↔ (permCfg cfg π).pairP (T.image π) := by
  constructor
  · rintro ⟨i, hi, j, hj, hne, p, hp, hall⟩
    refine ⟨π i, Finset.mem_image_of_mem π hi, π j, Finset.mem_image_of_mem π hj,
      fun h => hne (π.injective h), p, ?_, ?_⟩
    · rw [permCfg_inter cfg π hπ i j (hT i hi) (hT j hj)]
      exact hp
    · intro c' hc'
      obtain ⟨c, hc, rfl⟩ := Finset.mem_image.1 hc'
      rcases hall c hc with rfl | rfl | hin
      · exact Or.inl rfl
      · exact Or.inr (Or.inl rfl)
      · exact Or.inr (Or.inr ((permCfg_inCell cfg π hπ p c (hT c hc)).2 hin))
  · rintro ⟨i', hi', j', hj', hne', p, hp, hall'⟩
    obtain ⟨i, hi, rfl⟩ := Finset.mem_image.1 hi'
    obtain ⟨j, hj, rfl⟩ := Finset.mem_image.1 hj'
    rw [permCfg_inter cfg π hπ i j (hT i hi) (hT j hj)] at hp
    refine ⟨i, hi, j, hj, fun h => hne' (congrArg π h), p, hp, ?_⟩
    intro c hc
    rcases hall' (π c) (Finset.mem_image_of_mem π hc) with heq | heq | hin
    · exact Or.inl (π.injective heq)
    · exact Or.inr (Or.inl (π.injective heq))
    · exact Or.inr (Or.inr ((permCfg_inCell cfg π hπ p c (hT c hc)).1 hin))

theorem verifySetP_image (hπ : ∀ i, cfg.N ≤ i → π i = i) (T : Finset ℕ)
    (hT : ∀ j ∈ T, j < cfg.N) :
    cfg.verifySetP T ↔ (permCfg cfg π).verifySetP (T.image π) := by
  unfold Cfg.verifySetP
  rw [shortcutP_image cfg π hπ T hT, pairP_image cfg π hπ T hT]

end Perm

/-! ### Levelwise permutation relation and the loop -/

/-- Level `L'` of the relabeled run corresponds to level `L` of the original
run: equal as sets of canonical index-sets up to `π`. -/
def lvlRel (π : Equiv.Perm ℕ) (L L' : List (List ℕ)) : Prop :=
  (L'.map List.toFinset).toFinset =
    Finset.image (Finset.image π) ((L.map List.toFinset).toFinset)

theorem mem_lvlOf (L : List (List ℕ)) (T : Finset ℕ) :
    T ∈ (L.map List.toFinset).toFinset ↔ ∃ cells ∈ L, cells.toFinset = T := by
  rw [List.mem_toFinset, List.mem_map]

theorem image_symm_image (π : Equiv.Perm ℕ) (T : Finset ℕ) :
    (T.image π.symm).image π = T := by
  rw [Finset.image_image, Equiv.self_comp_symm, Finset.image_id]

theorem lvl_filter_perm (cfg : Cfg) (π : Equiv.Perm ℕ) (hπ : ∀ i, cfg.N ≤ i → π i = i)
    (k : ℕ) :
    lvlRel π (filterP (fun cand => cfg.verifyLE cand = true) (cfg.candsLE k))
      (filterP (fun cand => (permCfg cfg π).verifyLE cand = true)
        ((permCfg cfg π).candsLE k)) := by
  unfold lvlRel
  ext T'
  rw [mem_lvlOf, SkLE_set (permCfg cfg π) k T', Finset.mem_image]
  constructor
  · rintro ⟨hcand', hver'⟩
    have himg : (T'.image π.symm).image π = T' := image_symm_image π T'
    refine ⟨T'.image π.symm, ?_, himg⟩
    rw [mem_lvlOf, SkLE_set cfg k _]
    have hc1 : (permCfg cfg π).candP k ((T'.image π.symm).image π) := by
      rw [himg]; exact hcand'
    have hcand0 : cfg.candP k (T'.image π.symm) := (candP_image cfg π hπ k _).2 hc1
    have hv1 : (permCfg cfg π).verifySetP ((T'.image π.symm).image π) := by
      rw [himg]; exact hver'
    exact ⟨hcand0, (verifySetP_image cfg π hπ _ (candP_members_lt cfg k _ hcand0)).2 hv1⟩
  · rintro ⟨T₀, hT₀, rfl⟩
    rw [mem_lvlOf, SkLE_set cfg k T₀] at hT₀
    obtain ⟨hcand, hver⟩ := hT₀
    exact ⟨(candP_image cfg π hπ k T₀).1 hcand,
      (verifySetP_image cfg π hπ T₀ (candP_members_lt cfg k T₀ hcand)).1 hver⟩

theorem lvlRel_empty_iff (π : Equiv.Perm ℕ) (L L' : List (List ℕ)) (h : lvlRel π L L') :
    L = [] ↔ L' = [] := by
  unfold lvlRel at h
  constructor
  · intro h0
    rw [h0] at h
    rw [show ((([] : List (List ℕ)).map List.toFinset).toFinset :
      Finset (Finset ℕ)) = ∅ from rfl, Finset.image_empty] at h
    exact List.map_eq_nil_iff.1 ((List.toFinset_eq_empty_iff _).1 h)
  · intro h0
    rw [h0] at h
    rw [show ((([] : List (List ℕ)).map List.toFinset).toFinset :
      Finset (Finset ℕ)) = ∅ from rfl] at h
    have h2 := Finset.image_eq_empty.1 h.symm
    exact List.map_eq_nil_iff.1 ((List.toFinset_eq_empty_iff _).1 h2)

theorem tailLE_perm (cfg : Cfg) (π : Equiv.Perm ℕ) (hπ : ∀ i, cfg.N ≤ i → π i = i)
    (mk : Option ℕ) :
    ∀ fuel k, List.Forall₂ (lvlRel π) (cfg.tailLE mk fuel k)
      ((permCfg cfg π).tailLE mk fuel k) := by
  intro fuel
  induction fuel with
  | zero =>
      intro k
      exact List.Forall₂.nil
  | succ fuel ih =>
      intro k
      rw [Cfg.tailLE, Cfg.tailLE]
      by_cases hcut : maxKCut mk k = true
      · rw [if_pos hcut, if_pos hcut]
        exact List.Forall₂.nil
      · rw [if_neg hcut, if_neg hcut]
        have hrel := lvl_filter_perm cfg π hπ k
        by_cases hsk : filterP (fun cand => cfg.verifyLE cand = true) (cfg.candsLE k) = []
        · rw [if_pos hsk, if_pos ((lvlRel_empty_iff π _ _ hrel).1 hsk)]
          exact List.Forall₂.nil
        · rw [if_neg hsk, if_neg (fun h => hsk ((lvlRel_empty_iff π _ _ hrel).2 h))]
          exact List.Forall₂.cons hrel (ih (k + 1))

theorem mem_sim0_set (cfg : Cfg) (T : Finset ℕ) :
    (∃ cells ∈ cfg.sim0, cells.toFinset = T) ↔ ∃ i < cfg.N, T = {i} := by
  rw [Cfg.sim0]
  constructor
  · rintro ⟨cells, hc, rfl⟩
    obtain ⟨i, hi, rfl⟩ := List.mem_map.1 hc
    exact ⟨i, List.mem_range.1 hi, rfl⟩
  · rintro ⟨i, hi, rfl⟩
    exact ⟨[i], List.mem_map.2 ⟨i, List.mem_range.2 hi, rfl⟩, rfl⟩

theorem sim0_rel (cfg : Cfg) (π : Equiv.Perm ℕ) (hπ : ∀ i, cfg.N ≤ i → π i = i) :
    lvlRel π cfg.sim0 (permCfg cfg π).sim0 := by
  unfold lvlRel
  ext T'
  rw [mem_lvlOf, mem_sim0_set, Finset.mem_image, permCfg_N]
  constructor
  · rintro ⟨i, hi, rfl⟩
    refine ⟨{π.symm i}, ?_, ?_⟩
    · rw [mem_lvlOf, mem_sim0_set]
      exact ⟨π.symm i, perm_symm_lt cfg π hπ i hi, rfl⟩
    · rw [Finset.image_singleton, Equiv.apply_symm_apply]
  · rintro ⟨T₀, hT₀, rfl⟩
    rw [mem_lvlOf, mem_sim0_set] at hT₀
    obtain ⟨i, hi, rfl⟩ := hT₀
    rw [Finset.image_singleton]
    exact ⟨π i, perm_lt cfg π hπ i hi, rfl⟩

theorem mem_sim1_set (cfg : Cfg) (T : Finset ℕ) :
    (∃ cells ∈ cfg.sim1, cells.toFinset = T) ↔
      ∃ i j, i < j ∧ j < cfg.N ∧ cfg.intersects i j ∧ T = ({i, j} : Finset ℕ) := by
  rw [Cfg.sim1]
  constructor
  · rintro ⟨cells, hc, rfl⟩
    obtain ⟨i, hi, hc2⟩ := List.mem_flatMap.1 hc
    obtain ⟨j, hj, rfl⟩ := List.mem_map.1 hc2
    obtain ⟨hjr, hij, hint⟩ := (mem_filterP _ _ _).1 hj
    exact ⟨i, j, hij, List.mem_range.1 hjr, hint, by
      rw [List.toFinset_cons, List.toFinset_cons, List.toFinset_nil]; rfl⟩
  · rintro ⟨i, j, hij, hjN, hint, rfl⟩
    refine ⟨[i, j], List.mem_flatMap.2 ⟨i, List.mem_range.2 (by omega), List.mem_map.2
      ⟨j, (mem_filterP _ _ _).2 ⟨List.mem_range.2 hjN, hij, hint⟩, rfl⟩⟩, ?_⟩
    rw [List.toFinset_cons, List.toFinset_cons, List.toFinset_nil]
    rfl

theorem sim1_pair_reorder (cfg : Cfg) (a b : ℕ) (hne : a ≠ b) (haN : a < cfg.N)
    (hbN : b < cfg.N) (hint : cfg.intersects a b) :
    ∃ i j, i < j ∧ j < cfg.N ∧ cfg.intersects i j ∧ ({a, b} : Finset ℕ) = {i, j} := by
  rcases Nat.lt_or_ge a b with h | h
  · exact ⟨a, b, h, hbN, hint, rfl⟩
  · have hba : b < a := by omega
    exact ⟨b, a, hba, haN, (cfg.intersects_comm a b).1 hint, Finset.pair_comm a b⟩

theorem sim1_rel (cfg : Cfg) (π : Equiv.Perm ℕ) (hπ : ∀ i, cfg.N ≤ i → π i = i) :
    lvlRel π cfg.sim1 (permCfg cfg π).sim1 := by
  unfold lvlRel
  ext T'
  rw [mem_lvlOf, mem_sim1_set, Finset.mem_image, permCfg_N]
  constructor
  · rintro ⟨i', j', hij, hjN, hint, rfl⟩
    have hiN : i' < cfg.N := lt_trans hij hjN
    have ha := perm_symm_lt cfg π hπ i' hiN
    have hb := perm_symm_lt cfg π hπ j' hjN
    have hint0 : cfg.intersects (π.symm i') (π.symm j') := by
      have h2 : (permCfg cfg π).intersects (π (π.symm i')) (π (π.symm j')) := by
        rw [Equiv.apply_symm_apply, Equiv.apply_symm_apply]
        exact hint
      exact (permCfg_intersects cfg π hπ (π.symm i') (π.symm j') ha hb).1 h2
    have hne0 : π.symm i' ≠ π.symm j' :=
      fun h => absurd (π.symm.injective h) (by omega)
    obtain ⟨i0, j0, hij0, hj0N, hint0', hpair⟩ :=
      sim1_pair_reorder cfg _ _ hne0 ha hb hint0
    refine ⟨{i0, j0}, ?_, ?_⟩
    · rw [mem_lvlOf, mem_sim1_set]
      exact ⟨i0, j0, hij0, hj0N, hint0', rfl⟩
    · rw [← hpair, Finset.image_insert, Finset.image_singleton,
        Equiv.apply_symm_apply, Equiv.apply_symm_apply]
  · rintro ⟨T₀, hT₀, rfl⟩
    rw [mem_lvlOf, mem_sim1_set] at hT₀
    obtain ⟨i, j, hij, hjN, hint, rfl⟩ := hT₀
    have hiN : i < cfg.N := lt_trans hij hjN
    have hne' : π i ≠ π j := fun h => absurd (π.injective h) (by omega)
    obtain ⟨i1, j1, hij1, hj1N, hint1, hpair⟩ := sim1_pair_reorder (permCfg cfg π)
      (π i) (π j) hne' (by rw [permCfg_N]; exact perm_lt cfg π hπ i hiN)
      (by rw [permCfg_N]; exact perm_lt cfg π hπ j hjN)
      ((permCfg_intersects cfg π hπ i j hiN hjN).2 hint)
    rw [permCfg_N] at hj1N
    rw [Finset.image_insert, Finset.image_singleton, hpair]
    exact ⟨i1, j1, hij1, hj1N, hint1, rfl⟩

theorem forall₂_getD {α β : Type} {R : α → β → Prop} :
    ∀ {l : List α} {l' : List β}, List.Forall₂ R l l' →
      ∀ (d : α) (d' : β), R d d' → ∀ n, R (l.getD n d) (l'.getD n d') := by
  intro l l' h d d' hd n
  induction h generalizing n with
  | nil => exact hd
  | cons h1 h2 ih =>
      cases n with
      | zero => exact h1
      | succ n => exact ih n

theorem lvlRel_nil (π : Equiv.Perm ℕ) : lvlRel π [] [] := by
  unfold lvlRel
  rw [show ((([] : List (List ℕ)).map List.toFinset).toFinset :
    Finset (Finset ℕ)) = ∅ from rfl, Finset.image_empty]

/-- Development lemma: relabeling the balls by any permutation `π` (fixing
the indices out of range) yields an isomorphic complex from the baseline
constructor `cechLE`: the complexes have the same number of levels, and
level `k` of the relabeled run is the `π`-image of level `k` of the
original run, as sets of canonical index-sets.  The analogous statement for
the optimized constructor `cechOpt` is left open: its verifier is
history-dependent through the memo, and transporting this result to it
would need the (unproven) completeness of the restricted witness search. -/
theorem cechLE_perm_equivariant (cfg : Cfg) (mk : Option ℕ) (π : Equiv.Perm ℕ)
    (hπ : ∀ i, cfg.N ≤ i → π i = i) :
    (cechLE (permCfg cfg π) mk).length = (cechLE cfg mk).length ∧
    ∀ k, lvl (cechLE (permCfg cfg π) mk) k =
      Finset.image (Finset.image π) (lvl (cechLE cfg mk) k) := by
  have htail := tailLE_perm cfg π hπ mk (cfg.N + 1) 2
  constructor
  · rw [cechLE, cechLE, permCfg_N]
    simp only [List.length_append, List.length_cons, List.length_nil]
    rw [List.Forall₂.length_eq htail]
  · intro k
    match k with
    | 0 =>
        show ((((cechLE (permCfg cfg π) mk).getD 0 []).map List.toFinset).toFinset :
          Finset (Finset ℕ)) = _
        rw [cechLE, cechLE]
        exact sim0_rel cfg π hπ
    | 1 =>
        show ((((cechLE (permCfg cfg π) mk).getD 1 []).map List.toFinset).toFinset :
          Finset (Finset ℕ)) = _
        rw [cechLE, cechLE]
        exact sim1_rel cfg π hπ
    | Nat.succ (Nat.succ k) =>
        show ((((cechLE (permCfg cfg π) mk).getD (k + 2) []).map List.toFinset).toFinset :
          Finset (Finset ℕ)) = _
        rw [cechLE, cechLE, permCfg_N]
        exact forall₂_getD htail [] [] (lvlRel_nil π) k

/-- Concrete two-ball input instantiating the equivariance lemma. -/
def cfgC8 : Cfg := ⟨[((0 : ℝ), (0 : ℝ)), ((3 : ℝ), (0 : ℝ))], [1, 1]⟩

/-- Instance of the equivariance lemma: the transposition of the two balls
of a concrete two-ball input satisfies the fixing hypothesis, and the
relabeled complex is the `π`-image of the original levelwise. -/
theorem cechLE_perm_equivariant_swap01 :
    (∀ i, cfgC8.N ≤ i → Equiv.swap 0 1 i = i) ∧
    ((cechLE (permCfg cfgC8 (Equiv.swap 0 1)) none).length = (cechLE cfgC8 none).length ∧
      ∀ k, lvl (cechLE (permCfg cfgC8 (Equiv.swap 0 1)) none) k =
        Finset.image (Finset.image (Equiv.swap 0 1)) (lvl (cechLE cfgC8 none) k)) := by
  have hfix : ∀ i, cfgC8.N ≤ i → Equiv.swap 0 1 i = i := by
    intro i hi
    have h2 : (2 : ℕ) ≤ i := hi
    exact Equiv.swap_apply_of_ne_of_ne (by omega) (by omega)
  exact ⟨hfix, cechLE_perm_equivariant cfgC8 none (Equiv.swap 0 1) hfix⟩

end Gcech

end
